import Mathlib

/-!
Shallow embedding of the szip archive engine (repository StasX-Official/szip)
and proofs about its specification claims.

Source files modelled here:
* src/src/crypto.ts            (CryptoUtils: generatePasswordHash, verifyPassword,
                                generateFileHash progress reporting)
* src/unnamed/part_002         (SimplZip: zip, unzip, checkPasswordProtection,
                                isPathSafe, compression-ratio computation)
* src/unnamed/part_003         (SecurityUtils.validateFilename)

JavaScript strings are modelled as `List Char`.  Node's path functions
(`path.resolve`, `path.join`, `path.basename`, `path.extname`, POSIX flavour)
and the relevant pieces of `String.prototype` (`split`, `includes`, `parseInt`,
`===`) are embedded as executable Lean functions.  `crypto.pbkdf2Sync` (an
opaque cryptographic primitive external to the repository) is abstracted as a
function parameter `KDF`; theorems that depend on cryptographic properties of
PBKDF2 take the corresponding non-collision facts as explicit hypotheses.
All definitions are executable so that witnesses can evaluate them on
concrete inputs.
-/

namespace SZip

/-- Model of JavaScript `s.split(sep)` for a single-character separator
(used at src/src/crypto.ts:130 with separator the dollar sign, and at
src/unnamed/part_002:140 indirectly through the path model).
JS semantics: "a,b,".split(",") = ["a","b",""], "".split(",") = [""]. -/
def jsSplitChar (sep : Char) (l : List Char) : List (List Char) :=
  l.foldr
    (fun c acc =>
      match acc with
      | [] => [[c]]
      | h :: t => if c = sep then [] :: h :: t else (c :: h) :: t)
    [[]]

theorem jsSplitChar_nil (sep : Char) : jsSplitChar sep [] = [[]] := rfl

theorem jsSplitChar_cons (sep c : Char) (l : List Char) :
    jsSplitChar sep (c :: l) =
      match jsSplitChar sep l with
      | [] => [[c]]
      | h :: t => if c = sep then [] :: h :: t else (c :: h) :: t := rfl

theorem jsSplitChar_ne_nil (sep : Char) (l : List Char) : jsSplitChar sep l ≠ [] := by
  induction l with
  | nil => simp [jsSplitChar_nil]
  | cons c rest ih =>
    rw [jsSplitChar_cons]
    cases h : jsSplitChar sep rest with
    | nil => simp
    | cons h t => by_cases hc : c = sep <;> simp [hc]

/-- Splitting a separator-free string returns the string as its single part. -/
theorem jsSplitChar_no_sep (sep : Char) (l : List Char) (h : sep ∉ l) :
    jsSplitChar sep l = [l] := by
  induction l with
  | nil => rfl
  | cons c rest ih =>
    rw [jsSplitChar_cons, ih (fun hm => h (List.mem_cons_of_mem _ hm))]
    have hc : ¬ c = sep := fun hc => h (hc ▸ List.mem_cons_self c rest)
    simp [hc]

/-- Splitting distributes over an occurrence of the separator. -/
theorem jsSplitChar_sep_append (sep : Char) (X Y : List Char) :
    jsSplitChar sep (X ++ sep :: Y) = jsSplitChar sep X ++ jsSplitChar sep Y := by
  induction X with
  | nil =>
    rw [List.nil_append, jsSplitChar_cons]
    cases hr : jsSplitChar sep Y with
    | nil => exact absurd hr (jsSplitChar_ne_nil sep Y)
    | cons a t => simp [jsSplitChar_nil]
  | cons c X ih =>
    rw [List.cons_append, jsSplitChar_cons, ih]
    cases hx : jsSplitChar sep X with
    | nil => exact absurd hx (jsSplitChar_ne_nil sep X)
    | cons a t =>
      by_cases hc : c = sep
      · simp [hc, jsSplitChar_cons, hx]
      · simp [hc, jsSplitChar_cons, hx]

/-- Splitting distributes over a separator occurrence that follows a
separator-free chunk. -/
theorem jsSplitChar_chunk (sep : Char) (X R : List Char) (h : sep ∉ X) :
    jsSplitChar sep (X ++ sep :: R) = X :: jsSplitChar sep R := by
  rw [jsSplitChar_sep_append, jsSplitChar_no_sep sep X h]
  rfl

/-- Every part produced by the split is separator-free. -/
theorem jsSplitChar_mem_no_sep (sep : Char) (l : List Char) :
    ∀ s ∈ jsSplitChar sep l, sep ∉ s := by
  induction l with
  | nil => intro s hs; rw [jsSplitChar_nil] at hs; simp at hs; simp [hs]
  | cons c rest ih =>
    intro s hs
    rw [jsSplitChar_cons] at hs
    cases hr : jsSplitChar sep rest with
    | nil => exact absurd hr (jsSplitChar_ne_nil sep rest)
    | cons h t =>
      rw [hr] at hs
      by_cases hc : c = sep
      · simp [hc] at hs
        rcases hs with hs | hs | hs
        · simp [hs]
        · exact hs ▸ ih h (hr ▸ List.mem_cons_self h t)
        · exact ih s (hr ▸ List.mem_cons_of_mem h hs)
      · simp [hc] at hs
        rcases hs with hs | hs
        · subst hs
          intro hmem
          rcases List.mem_cons.mp hmem with h1 | h1
          · exact hc h1.symm
          · exact ih h (hr ▸ List.mem_cons_self h t) h1
        · exact ih s (hr ▸ List.mem_cons_of_mem h hs)

/-- Model of JavaScript `s.includes(sub)` (used at src/unnamed/part_002:184:
`zipfile.comment?.includes('SZIP_PASSWORD_PROTECTED:')`). -/
def containsSub (sub : List Char) : List Char → Bool
  | [] => sub.isEmpty
  | c :: rest => sub.isPrefixOf (c :: rest) || containsSub sub rest

theorem containsSub_of_isPrefixOf (sub l : List Char) (h : sub.isPrefixOf l = true) :
    containsSub sub l = true := by
  cases l with
  | nil =>
    cases sub with
    | nil => rfl
    | cons a s => simp [List.isPrefixOf] at h
  | cons c rest => simp [containsSub, h]

/-- An occurrence of a nonempty substring puts its head character in the string. -/
theorem head_mem_of_containsSub (c0 : Char) (cr l : List Char)
    (h : containsSub (c0 :: cr) l = true) : c0 ∈ l := by
  induction l with
  | nil => simp [containsSub, List.isEmpty] at h
  | cons c rest ih =>
    simp only [containsSub, Bool.or_eq_true] at h
    rcases h with h | h
    · rw [List.isPrefixOf_cons₂] at h
      have : c0 = c := by
        have := (Bool.and_eq_true _ _).mp h |>.1
        exact beq_iff_eq.mp this
      exact this ▸ List.mem_cons_self _ _
    · exact List.mem_cons_of_mem _ (ih h)

/-- Model of JavaScript `s.split(sub)` for a (nonempty) multi-character
separator, with explicit fuel so the definition is structurally recursive and
evaluates inside `decide`.  Used at src/unnamed/part_002:127:
`zipfile.comment.split('SZIP_PASSWORD_PROTECTED:')`. -/
def jsSplitStrAux (s0 : Char) (sr : List Char) : Nat → List Char → List (List Char)
  | _, [] => [[]]
  | 0, l => [l]
  | fuel + 1, c :: rest =>
    if (s0 :: sr).isPrefixOf (c :: rest) then
      [] :: jsSplitStrAux s0 sr fuel (rest.drop sr.length)
    else
      match jsSplitStrAux s0 sr fuel rest with
      | [] => [[c]]
      | h :: t => (c :: h) :: t

/-- JavaScript `s.split(sub)`.  The empty-separator case mirrors JS
(splitting into single characters); it is never used by the modelled code. -/
def jsSplitStr (sub l : List Char) : List (List Char) :=
  match sub with
  | [] => l.map (fun c => [c])
  | s0 :: sr => jsSplitStrAux s0 sr l.length l

theorem jsSplitStrAux_no_occurrence (s0 : Char) (sr : List Char) :
    ∀ (fuel : Nat) (l : List Char), l.length ≤ fuel →
      containsSub (s0 :: sr) l = false → jsSplitStrAux s0 sr fuel l = [l] := by
  intro fuel
  induction fuel with
  | zero =>
    intro l hl _
    cases l with
    | nil => rfl
    | cons c rest => simp at hl
  | succ fuel ih =>
    intro l hl hocc
    cases l with
    | nil => rfl
    | cons c rest =>
      simp only [containsSub, Bool.or_eq_false_iff] at hocc
      rw [jsSplitStrAux]
      rw [hocc.1]
      simp only [List.length_cons, Nat.succ_le_succ_iff] at hl
      rw [ih rest hl hocc.2]
      simp

/-- If the separator does not occur in the string, JS split returns the
whole string as the only part. -/
theorem jsSplitStr_no_occurrence (s0 : Char) (sr l : List Char)
    (h : containsSub (s0 :: sr) l = false) : jsSplitStr (s0 :: sr) l = [l] :=
  jsSplitStrAux_no_occurrence s0 sr l.length l (Nat.le_refl _) h

/-- Splitting a string of the form separator-then-rest, where the separator
does not occur in the rest, yields exactly two parts: the empty part and the
rest.  This is the shape of the archive comment written by SimplZip.zip. -/
theorem jsSplitStrAux_marker (s0 : Char) (sr h : List Char)
    (hocc : containsSub (s0 :: sr) h = false) (fuel : Nat)
    (hf : sr.length + h.length ≤ fuel) :
    jsSplitStrAux s0 sr (fuel + 1) (s0 :: (sr ++ h)) = [[], h] := by
  have hpre : (s0 :: sr).isPrefixOf (s0 :: (sr ++ h)) = true := by
    rw [List.isPrefixOf_iff_prefix]
    exact ⟨h, by simp⟩
  rw [jsSplitStrAux, hpre]
  have hdrop : (sr ++ h).drop sr.length = h := by
    rw [List.drop_append_eq_append_drop]
    simp
  simp only [if_true, hdrop]
  rw [jsSplitStrAux_no_occurrence s0 sr fuel h (by omega) hocc]

/-- Splitting a string of the form separator-then-rest, where the separator
does not occur in the rest, yields exactly two parts: the empty part and the
rest.  This is the shape of the archive comment written by SimplZip.zip. -/
theorem jsSplitStr_marker_prefix (s0 : Char) (sr h : List Char)
    (hocc : containsSub (s0 :: sr) h = false) :
    jsSplitStr (s0 :: sr) ((s0 :: sr) ++ h) = [[], h] := by
  show jsSplitStrAux s0 sr ((s0 :: sr) ++ h).length ((s0 :: sr) ++ h) = [[], h]
  have hlen : ((s0 :: sr) ++ h).length = (sr.length + h.length) + 1 := by
    simp [List.length_append]
  rw [hlen, List.cons_append]
  exact jsSplitStrAux_marker s0 sr h hocc _ (Nat.le_refl _)

/-- Decimal digit test, as used by JS `parseInt` with radix 10. -/
def jsDigit (c : Char) : Bool := '0' ≤ c && c ≤ '9'

/-- Hexadecimal digit test (for the `0x` branch of JS `parseInt`). -/
def jsHexDigit (c : Char) : Bool :=
  jsDigit c || ('a' ≤ c && c ≤ 'f') || ('A' ≤ c && c ≤ 'F')

/-- Numeric value of a decimal digit string (most significant first). -/
def decVal (l : List Char) : Nat :=
  l.foldl (fun a c => a * 10 + (c.toNat - 48)) 0

/-- Numeric value of a hexadecimal digit string. -/
def hexDigitVal (c : Char) : Nat :=
  if jsDigit c then c.toNat - 48
  else if 'a' ≤ c && c ≤ 'f' then c.toNat - 87
  else c.toNat - 55

def hexVal (l : List Char) : Nat :=
  l.foldl (fun a c => a * 16 + hexDigitVal c) 0

/-- Character for the decimal digit d (0 ≤ d ≤ 9). -/
def digitChar (d : Nat) : Char := Char.ofNat (48 + d)

/-- Decimal representation of a natural number, most significant digit
first, fuelled so that the recursion is structural (the fuel is always at
least the number itself plus one).  Models JS template interpolation of a
number, `String(iterations)`, in src/src/crypto.ts:122. -/
def natDigitsAux : Nat → Nat → List Char
  | 0, n => [digitChar n]
  | fuel + 1, n =>
    if n < 10 then [digitChar n]
    else natDigitsAux fuel (n / 10) ++ [digitChar (n % 10)]

def natRepr (n : Nat) : List Char := natDigitsAux n n

/-- The set of characters skipped by JS `parseInt` before parsing
(ECMAScript WhiteSpace and LineTerminator code points). -/
def jsWhitespaceChars : List Char :=
  ['\u0009', '\u000A', '\u000B', '\u000C', '\u000D', '\u0020', '\u00A0',
   '\u1680', '\u2000', '\u2001', '\u2002', '\u2003', '\u2004', '\u2005',
   '\u2006', '\u2007', '\u2008', '\u2009', '\u200A', '\u202F', '\u205F',
   '\u3000', '\u2028', '\u2029', '\uFEFF']

def jsWhitespace (c : Char) : Bool := jsWhitespaceChars.contains c

/-- After whitespace and an optional sign, does the string select the
hexadecimal branch of `parseInt` (a `0x` / `0X` prefix)? -/
def startsHex : List Char → Bool
  | c :: x :: _ => c = '0' && (x = 'x' || x = 'X')
  | _ => false

/-- Digit-run parser after whitespace and sign have been consumed:
either the hexadecimal `0x` branch or the longest decimal digit run;
`none` models `NaN`. -/
def jsParseIntCore (t2 : List Char) : Option Int :=
  if startsHex t2 then
    let hs := (t2.drop 2).takeWhile jsHexDigit
    if hs.isEmpty then none else some (hexVal hs : Int)
  else
    let ds := t2.takeWhile jsDigit
    if ds.isEmpty then none else some (decVal ds : Int)

/-- Model of JavaScript `parseInt(s)` (radix unspecified, so radix 10 with
the `0x` hexadecimal exception): skip whitespace, read an optional sign,
then the longest digit run; `none` models `NaN`.
Used at src/src/crypto.ts:135. -/
def jsParseInt (l : List Char) : Option Int :=
  match l.dropWhile jsWhitespace with
  | [] => none
  | c :: r =>
    if c = '-' then (jsParseIntCore r).map (fun v => -v)
    else if c = '+' then jsParseIntCore r
    else jsParseIntCore (c :: r)

theorem jsDigit_not_whitespace (c : Char) (h : jsDigit c = true) :
    jsWhitespace c = false := by
  simp only [jsDigit, Bool.and_eq_true, decide_eq_true_eq] at h
  obtain ⟨h0, h9⟩ := h
  have hv0 : ('0' : Char).val ≤ c.val := h0
  have hv9 : c.val ≤ ('9' : Char).val := h9
  by_contra hw
  rw [Bool.not_eq_false] at hw
  have hmem : c ∈ jsWhitespaceChars := List.elem_iff.mp hw
  simp only [jsWhitespaceChars, List.mem_cons, List.not_mem_nil, or_false] at hmem
  rcases hmem with rfl | rfl | rfl | rfl | rfl | rfl | rfl | rfl | rfl | rfl | rfl |
    rfl | rfl | rfl | rfl | rfl | rfl | rfl | rfl | rfl | rfl | rfl | rfl | rfl | rfl <;>
    (revert hv0 hv9; decide)

theorem jsDigit_ne_dollar (c : Char) (h : jsDigit c = true) : c ≠ '$' := by
  intro he
  subst he
  simp [jsDigit] at h

theorem jsDigit_ne_sep_chars (c : Char) (h : jsDigit c = true) :
    c ≠ '-' ∧ c ≠ '+' := by
  constructor <;> intro he <;> (subst he; simp [jsDigit] at h)

/-- Unfolding lemma for decVal over an append. -/
theorem decVal_foldl (l : List Char) :
    ∀ a : Nat, l.foldl (fun a c => a * 10 + (c.toNat - 48)) a =
      a * 10 ^ l.length + decVal l := by
  induction l with
  | nil => intro a; simp [decVal]
  | cons c rest ih =>
    intro a
    show List.foldl _ (a * 10 + (c.toNat - 48)) rest = _
    rw [ih (a * 10 + (c.toNat - 48))]
    show _ = a * 10 ^ (rest.length + 1) + decVal (c :: rest)
    have : decVal (c :: rest) = (c.toNat - 48) * 10 ^ rest.length + decVal rest := by
      show List.foldl _ (0 * 10 + (c.toNat - 48)) rest = _
      rw [ih (0 * 10 + (c.toNat - 48))]
      ring_nf
    rw [this]
    ring

theorem decVal_append (X Y : List Char) :
    decVal (X ++ Y) = decVal X * 10 ^ Y.length + decVal Y := by
  show List.foldl _ 0 (X ++ Y) = _
  rw [List.foldl_append]
  exact decVal_foldl Y (decVal X)

theorem decVal_cons (c : Char) (l : List Char) :
    decVal (c :: l) = (c.toNat - 48) * 10 ^ l.length + decVal l := by
  have := decVal_append [c] l
  simpa [decVal] using this

/-- A string of decimal digits has value below 10 ^ length. -/
theorem decVal_lt (l : List Char) (h : ∀ c ∈ l, jsDigit c = true) :
    decVal l < 10 ^ l.length := by
  induction l with
  | nil => simp [decVal]
  | cons c rest ih =>
    rw [decVal_cons]
    have hc := h c (List.mem_cons_self _ _)
    have hd : c.toNat - 48 ≤ 9 := by
      simp only [jsDigit, Bool.and_eq_true, decide_eq_true_eq] at hc
      have : c.val ≤ ('9' : Char).val := hc.2
      have h9 : c.toNat ≤ 57 := this
      omega
    have hr := ih (fun x hx => h x (List.mem_cons_of_mem _ hx))
    calc (c.toNat - 48) * 10 ^ rest.length + decVal rest
        ≤ 9 * 10 ^ rest.length + decVal rest :=
          Nat.add_le_add_right (Nat.mul_le_mul_right _ hd) _
      _ < 9 * 10 ^ rest.length + 10 ^ rest.length := Nat.add_lt_add_left hr _
      _ = 10 ^ (rest.length + 1) := by ring

/-- On digit strings of equal length, decVal is injective. -/
theorem decVal_inj (X Y : List Char) (hlen : X.length = Y.length)
    (hX : ∀ c ∈ X, jsDigit c = true) (hY : ∀ c ∈ Y, jsDigit c = true)
    (hv : decVal X = decVal Y) : X = Y := by
  induction X generalizing Y with
  | nil =>
    cases Y with
    | nil => rfl
    | cons y ys => simp at hlen
  | cons x xs ih =>
    cases Y with
    | nil => simp at hlen
    | cons y ys =>
      simp only [List.length_cons, Nat.succ_inj] at hlen
      rw [decVal_cons, decVal_cons, hlen] at hv
      have hxlt := decVal_lt xs (fun c hc => hX c (List.mem_cons_of_mem _ hc))
      have hylt := decVal_lt ys (fun c hc => hY c (List.mem_cons_of_mem _ hc))
      rw [hlen] at hxlt
      have hdx : x.toNat - 48 = y.toNat - 48 := by
        by_contra hne
        rcases Nat.lt_or_ge (x.toNat - 48) (y.toNat - 48) with hlt | hge
        · have : (x.toNat - 48) * 10 ^ ys.length + decVal xs <
              (y.toNat - 48) * 10 ^ ys.length + decVal ys := by
            calc (x.toNat - 48) * 10 ^ ys.length + decVal xs
                < (x.toNat - 48) * 10 ^ ys.length + 10 ^ ys.length := by omega
              _ = (x.toNat - 48 + 1) * 10 ^ ys.length := by ring
              _ ≤ (y.toNat - 48) * 10 ^ ys.length := Nat.mul_le_mul_right _ hlt
              _ ≤ (y.toNat - 48) * 10 ^ ys.length + decVal ys := Nat.le_add_right _ _
          omega
        · have hlt' : y.toNat - 48 < x.toNat - 48 := by omega
          have : (y.toNat - 48) * 10 ^ ys.length + decVal ys <
              (x.toNat - 48) * 10 ^ ys.length + decVal xs := by
            calc (y.toNat - 48) * 10 ^ ys.length + decVal ys
                < (y.toNat - 48) * 10 ^ ys.length + 10 ^ ys.length := by omega
              _ = (y.toNat - 48 + 1) * 10 ^ ys.length := by ring
              _ ≤ (x.toNat - 48) * 10 ^ ys.length := Nat.mul_le_mul_right _ hlt'
              _ ≤ (x.toNat - 48) * 10 ^ ys.length + decVal xs := Nat.le_add_right _ _
          omega
      have hxy : x = y := by
        have hx48 : 48 ≤ x.toNat := by
          have := hX x (List.mem_cons_self _ _)
          simp only [jsDigit, Bool.and_eq_true, decide_eq_true_eq] at this
          exact this.1
        have hy48 : 48 ≤ y.toNat := by
          have := hY y (List.mem_cons_self _ _)
          simp only [jsDigit, Bool.and_eq_true, decide_eq_true_eq] at this
          exact this.1
        have htn : x.toNat = y.toNat := by omega
        have := congrArg Char.ofNat htn
        rwa [Char.ofNat_toNat, Char.ofNat_toNat] at this
      have hv' : decVal xs = decVal ys := by
        rw [hdx] at hv
        exact Nat.add_left_cancel hv
      have hrest : xs = ys :=
        ih ys hlen (fun c hc => hX c (List.mem_cons_of_mem _ hc))
          (fun c hc => hY c (List.mem_cons_of_mem _ hc)) hv'
      rw [hxy, hrest]

theorem digitChar_toNat (d : Nat) (h : d ≤ 9) : (digitChar d).toNat = 48 + d := by
  interval_cases d <;> decide

theorem digitChar_digit (d : Nat) (h : d ≤ 9) : jsDigit (digitChar d) = true := by
  interval_cases d <;> decide

theorem natDigitsAux_ne_nil (fuel n : Nat) : natDigitsAux fuel n ≠ [] := by
  cases fuel with
  | zero => simp [natDigitsAux]
  | succ fuel =>
    rw [natDigitsAux]
    by_cases h : n < 10 <;> simp [h]

theorem natDigitsAux_all_digit (fuel : Nat) :
    ∀ n, n ≤ fuel → ∀ c ∈ natDigitsAux fuel n, jsDigit c = true := by
  induction fuel with
  | zero =>
    intro n hn c hc
    have : n = 0 := Nat.le_zero.mp hn
    subst this
    simp only [natDigitsAux, List.mem_singleton] at hc
    subst hc
    exact digitChar_digit 0 (by omega)
  | succ fuel ih =>
    intro n hn c hc
    rw [natDigitsAux] at hc
    by_cases h : n < 10
    · rw [if_pos h] at hc
      simp only [List.mem_singleton] at hc
      subst hc
      exact digitChar_digit n (by omega)
    · rw [if_neg h] at hc
      rcases List.mem_append.mp hc with hc | hc
      · have hdiv : n / 10 ≤ fuel := by
          have := Nat.div_lt_self (by omega : 0 < n) (by omega : 1 < 10)
          omega
        exact ih (n / 10) hdiv c hc
      · simp only [List.mem_singleton] at hc
        subst hc
        exact digitChar_digit (n % 10) (by omega)

theorem natDigitsAux_decVal (fuel : Nat) :
    ∀ n, n ≤ fuel → decVal (natDigitsAux fuel n) = n := by
  induction fuel with
  | zero =>
    intro n hn
    have : n = 0 := Nat.le_zero.mp hn
    subst this
    simp [natDigitsAux, decVal, digitChar]
  | succ fuel ih =>
    intro n hn
    rw [natDigitsAux]
    by_cases h : n < 10
    · rw [if_pos h]
      show decVal [digitChar n] = n
      have := digitChar_toNat n (by omega)
      simp [decVal, this]
    · rw [if_neg h]
      rw [decVal_append]
      have hdiv : n / 10 ≤ fuel := by
        have := Nat.div_lt_self (by omega : 0 < n) (by omega : 1 < 10)
        omega
      rw [ih (n / 10) hdiv]
      have : decVal [digitChar (n % 10)] = n % 10 := by
        have := digitChar_toNat (n % 10) (by omega)
        simp [decVal, this]
      rw [this]
      simp only [List.length_singleton, pow_one]
      omega

theorem natDigitsAux_head_ne_zero (fuel : Nat) :
    ∀ n, 1 ≤ n → n ≤ fuel → ∀ c cs, natDigitsAux fuel n = c :: cs → c ≠ '0' := by
  induction fuel with
  | zero => intro n h1 h2; omega
  | succ fuel ih =>
    intro n h1 _ c cs heq
    rw [natDigitsAux] at heq
    by_cases h : n < 10
    · rw [if_pos h] at heq
      have hc : c = digitChar n := ((List.cons.inj heq).1).symm
      subst hc
      intro he
      have h48 := digitChar_toNat n (by omega)
      rw [he] at h48
      have : ('0' : Char).toNat = 48 := by decide
      omega
    · rw [if_neg h] at heq
      have hdiv1 : 1 ≤ n / 10 := (Nat.one_le_div_iff (by omega)).mpr (by omega)
      have hdiv : n / 10 ≤ fuel := by
        have hne := ih (n / 10) hdiv1
        have := Nat.div_lt_self (by omega : 0 < n) (by omega : 1 < 10)
        omega
      cases hd : natDigitsAux fuel (n / 10) with
      | nil => exact absurd hd (natDigitsAux_ne_nil fuel (n / 10))
      | cons d ds =>
        rw [hd, List.cons_append] at heq
        have hc : c = d := ((List.cons.inj heq).1).symm
        subst hc
        exact ih (n / 10) hdiv1 hdiv c _ hd

theorem natRepr_all_digit (n : Nat) : ∀ c ∈ natRepr n, jsDigit c = true :=
  natDigitsAux_all_digit n n (Nat.le_refl n)

theorem natRepr_decVal (n : Nat) : decVal (natRepr n) = n :=
  natDigitsAux_decVal n n (Nat.le_refl n)

theorem natRepr_ne_nil (n : Nat) : natRepr n ≠ [] := natDigitsAux_ne_nil n n

theorem natRepr_no_dollar (n : Nat) : '$' ∉ natRepr n := by
  intro h
  exact jsDigit_ne_dollar _ (natRepr_all_digit n _ h) rfl

theorem natRepr_head_ne_zero (n : Nat) (h1 : 1 ≤ n) (c : Char) (cs : List Char)
    (heq : natRepr n = c :: cs) : c ≠ '0' :=
  natDigitsAux_head_ne_zero n n h1 (Nat.le_refl n) c cs heq

/-- A nonempty all-digit string parses (as JS parseInt) to its decimal value. -/
theorem jsParseInt_all_digit (l : List Char) (hne : l ≠ [])
    (hd : ∀ c ∈ l, jsDigit c = true) (hz : ∀ cs, l ≠ '0' :: 'x' :: cs ∧ l ≠ '0' :: 'X' :: cs) :
    jsParseInt l = some (decVal l : Int) := by
  cases l with
  | nil => exact absurd rfl hne
  | cons c r =>
    have hcd := hd c (List.mem_cons_self _ _)
    have hdw : (c :: r).dropWhile jsWhitespace = c :: r := by
      rw [List.dropWhile_cons, jsDigit_not_whitespace c hcd]
      simp
    have hsep := jsDigit_ne_sep_chars c hcd
    simp only [jsParseInt, hdw]
    rw [if_neg hsep.1, if_neg hsep.2]
    rw [jsParseIntCore]
    have hhex : startsHex (c :: r) = false := by
      cases r with
      | nil => rfl
      | cons x rs =>
        have hx := hd x (List.mem_cons_of_mem _ (List.mem_cons_self _ _))
        have hxx : ¬ x = 'x' := by intro he; rw [he] at hx; simp [jsDigit] at hx
        have hxX : ¬ x = 'X' := by intro he; rw [he] at hx; simp [jsDigit] at hx
        simp [startsHex, hxx, hxX]
    rw [hhex]
    simp only [if_false, Bool.false_eq_true]
    have htake : (c :: r).takeWhile jsDigit = c :: r := List.takeWhile_eq_self_iff.mpr hd
    rw [htake]
    simp [hne]

theorem jsParseInt_natRepr (n : Nat) : jsParseInt (natRepr n) = some (n : Int) := by
  have h := jsParseInt_all_digit (natRepr n) (natRepr_ne_nil n) (natRepr_all_digit n) ?_
  · rw [natRepr_decVal] at h
    exact h
  · intro cs
    constructor <;> intro heq
    · by_cases h1 : 1 ≤ n
      · exact natRepr_head_ne_zero n h1 '0' ('x' :: cs) heq rfl
      · have : n = 0 := by omega
        subst this
        simp only [natRepr] at heq
        simp [natDigitsAux] at heq
    · by_cases h1 : 1 ≤ n
      · exact natRepr_head_ne_zero n h1 '0' ('X' :: cs) heq rfl
      · have : n = 0 := by omega
        subst this
        simp only [natRepr] at heq
        simp [natDigitsAux] at heq

/-- Abstraction of `crypto.pbkdf2Sync(password, salt, iterations, 64,
'sha512').toString('hex')` (src/src/crypto.ts:121 and 139): an opaque key
derivation function mapping (password, salt, iterations) to a hex digest
string.  PBKDF2 itself is a Node built-in, external to the repository;
theorems needing its cryptographic properties take them as hypotheses. -/
def KDF : Type := List Char → List Char → Nat → List Char

/-- The fixed algorithm tag of the credential format (src/src/crypto.ts:122
and 131). -/
def pbkdf2Tag : List Char := String.toList "pbkdf2_sha512"

/-- Model of the credential string template at src/src/crypto.ts:122:
the string "pbkdf2_sha512$" + iterations + "$" + salt + "$" + digest.
This is the spec's `encode(iterations, salt, digest)`. -/
def encodeCred (iterations : Nat) (salt digest : List Char) : List Char :=
  pbkdf2Tag ++ '$' :: (natRepr iterations ++ '$' :: (salt ++ '$' :: digest))

/-- Model of `CryptoUtils.generatePasswordHash` (src/src/crypto.ts:119-123).
The source's optional parameters (salt defaulting to 32 random bytes in hex,
iterations defaulting to 100000) are explicit arguments here; the PBKDF2 call
is the abstract `kdf`. -/
def generatePasswordHash (kdf : KDF) (password salt : List Char)
    (iterations : Nat) : List Char :=
  encodeCred iterations salt (kdf password salt iterations)

/-- Short-circuit string comparison with an execution-cost count: the
result is the comparison outcome of JavaScript string equality (the `===` at
src/src/crypto.ts:140) and the cost is the number of character comparisons
performed by a left-to-right short-circuit scan, the natural cost model for
that comparison. -/
def sccmp : List Char → List Char → Bool × Nat
  | [], [] => (true, 0)
  | [], _ :: _ => (false, 0)
  | _ :: _, [] => (false, 0)
  | a :: as, b :: bs =>
    if a = b then
      let r := sccmp as bs
      (r.1, r.2 + 1)
    else (false, 1)

theorem sccmp_fst_iff (a b : List Char) : (sccmp a b).1 = true ↔ a = b := by
  induction a generalizing b with
  | nil => cases b <;> simp [sccmp]
  | cons x xs ih =>
    cases b with
    | nil => simp [sccmp]
    | cons y ys =>
      by_cases hxy : x = y
      · subst hxy
        simp [sccmp, ih]
      · simp [sccmp, hxy]

theorem sccmp_fst_self (a : List Char) : (sccmp a a).1 = true :=
  (sccmp_fst_iff a a).mpr rfl

theorem sccmp_fst_ne (a b : List Char) (h : a ≠ b) : (sccmp a b).1 = false := by
  cases hv : (sccmp a b).1 with
  | false => rfl
  | true => exact absurd ((sccmp_fst_iff a b).mp hv) h

/-- Parsing stage of `CryptoUtils.verifyPassword` (src/src/crypto.ts:128-140):
split on the dollar sign, require exactly four parts with the fixed algorithm
tag, parse the iteration count (`parseInt(parts[1] || '100000')`, so an empty
part falls back to 100000), and require a usable iteration count.  `none`
covers every path on which the source returns false before comparing digests:
wrong part count, wrong tag, and a `parseInt` result that is `NaN` or below 1
(for which `crypto.pbkdf2Sync` throws a ValidationError, caught by the
surrounding try/catch at lines 129/141-143). -/
def credParse (hash : List Char) : Option (Nat × List Char × List Char) :=
  match jsSplitChar '$' hash with
  | [alg, iterS, salt, dig] =>
    if alg = pbkdf2Tag then
      match (if iterS.isEmpty then some (100000 : Int) else jsParseInt iterS) with
      | some m => if 1 ≤ m then some (m.toNat, salt, dig) else none
      | none => none
    else none
  | _ => none

/-- Model of `CryptoUtils.verifyPassword` (src/src/crypto.ts:128-144):
parse the credential string, re-derive the digest with the embedded salt and
iteration count, and compare with JavaScript `===` (the short-circuit
comparison `sccmp`). -/
def verifyPassword (kdf : KDF) (password hash : List Char) : Bool :=
  match credParse hash with
  | some (m, salt, dig) => (sccmp dig (kdf password salt m)).1
  | none => false

/-- Number of character comparisons performed by the digest comparison inside
`verifyPassword` (0 when the comparison is never reached). -/
def verifyCmpCost (kdf : KDF) (password hash : List Char) : Nat :=
  match credParse hash with
  | some (m, salt, dig) => (sccmp dig (kdf password salt m)).2
  | none => 0

theorem pbkdf2Tag_no_dollar : '$' ∉ pbkdf2Tag := by decide

/-- The four components of a well-formed credential string are recovered by
the dollar-sign split. -/
theorem jsSplitChar_encodeCred (iterations : Nat) (salt digest : List Char)
    (hs : '$' ∉ salt) (hd : '$' ∉ digest) :
    jsSplitChar '$' (encodeCred iterations salt digest) =
      [pbkdf2Tag, natRepr iterations, salt, digest] := by
  rw [encodeCred]
  rw [jsSplitChar_chunk '$' pbkdf2Tag _ pbkdf2Tag_no_dollar]
  rw [jsSplitChar_chunk '$' (natRepr iterations) _ (natRepr_no_dollar iterations)]
  rw [jsSplitChar_chunk '$' salt _ hs]
  rw [jsSplitChar_no_sep '$' digest hd]

theorem credParse_encodeCred (iterations : Nat) (salt digest : List Char)
    (hiter : 1 ≤ iterations) (hs : '$' ∉ salt) (hd : '$' ∉ digest) :
    credParse (encodeCred iterations salt digest) =
      some (iterations, salt, digest) := by
  rw [credParse, jsSplitChar_encodeCred iterations salt digest hs hd]
  simp only [if_pos rfl]
  have hne : (natRepr iterations).isEmpty = false := by
    cases h : natRepr iterations with
    | nil => exact absurd h (natRepr_ne_nil iterations)
    | cons c cs => rfl
  rw [hne]
  simp only [Bool.false_eq_true, if_false, jsParseInt_natRepr]
  have h1 : (1 : Int) ≤ (iterations : Int) := by exact_mod_cast hiter
  rw [if_pos h1]
  simp

/-- Claim C3 verification helper: verifying the correct password against its
own freshly encoded credential succeeds. -/
theorem verifyPassword_correct (kdf : KDF) (password salt : List Char)
    (iterations : Nat) (hiter : 1 ≤ iterations) (hs : '$' ∉ salt)
    (hd : '$' ∉ kdf password salt iterations) :
    verifyPassword kdf password (generatePasswordHash kdf password salt iterations) = true := by
  rw [verifyPassword, generatePasswordHash,
    credParse_encodeCred iterations salt _ hiter hs hd]
  exact sccmp_fst_self _

/-- Verifying a password whose derived digest differs from the stored digest
fails. -/
theorem verifyPassword_other (kdf : KDF) (password other salt : List Char)
    (iterations : Nat) (hiter : 1 ≤ iterations) (hs : '$' ∉ salt)
    (hd : '$' ∉ kdf password salt iterations)
    (hne : kdf other salt iterations ≠ kdf password salt iterations) :
    verifyPassword kdf other (generatePasswordHash kdf password salt iterations) = false := by
  rw [verifyPassword, generatePasswordHash,
    credParse_encodeCred iterations salt _ hiter hs hd]
  exact sccmp_fst_ne _ _ (fun h => hne h.symm)

/-- Concrete stand-in key-derivation function used by witnesses: injective
and dollar-free on the inputs used, so the cryptographic hypotheses of the
theorems can be discharged on concrete instances. -/
def kdfToy : KDF := fun password salt iterations => password ++ salt ++ natRepr iterations

/-- Constant stand-in key-derivation function for the timing counterexample. -/
def kdfConst : KDF := fun _ _ _ => String.toList "xy"

/-- C3: for every password, iteration count and salt (within the format's
domain: a positive iteration count and dollar-free hex components, which is
what the source produces), verify(password, encode(N, salt, derive(password,
N, salt))) is true, and it is false for an incorrect password whose derived
digest differs from the stored one (for real PBKDF2 this non-collision is the
expected cryptographic behaviour; it is taken as the hypothesis hne). -/
theorem claim3_credential_roundtrip (kdf : KDF) (password other salt : List Char)
    (iterations : Nat) (hiter : 1 ≤ iterations) (hs : '$' ∉ salt)
    (hd : '$' ∉ kdf password salt iterations)
    (hne : kdf other salt iterations ≠ kdf password salt iterations) :
    verifyPassword kdf password (generatePasswordHash kdf password salt iterations) = true ∧
    verifyPassword kdf other (generatePasswordHash kdf password salt iterations) = false :=
  ⟨verifyPassword_correct kdf password salt iterations hiter hs hd,
   verifyPassword_other kdf password other salt iterations hiter hs hd hne⟩

theorem claim3_credential_roundtrip_witness :
    verifyPassword kdfToy (String.toList "p@ss")
      (generatePasswordHash kdfToy (String.toList "p@ss") (String.toList "ab12") 2) = true ∧
    verifyPassword kdfToy (String.toList "wrong")
      (generatePasswordHash kdfToy (String.toList "p@ss") (String.toList "ab12") 2) = false :=
  claim3_credential_roundtrip kdfToy (String.toList "p@ss") (String.toList "wrong")
    (String.toList "ab12") 2 (by decide) (by decide) (by decide) (by decide)

/-- C6 (amended): verifyPassword parses the credential string and re-derives
the digest from the supplied password with the embedded iteration count and
salt, but the final comparison is JavaScript string equality (`===`,
src/src/crypto.ts:140), a short-circuit comparison, not a constant-time one:
both the comparison outcome and its character-comparison cost are exactly
those of the short-circuit scan sccmp. -/
theorem claim6_rederive_shortcircuit (kdf : KDF) (password salt dig : List Char)
    (iterations : Nat) (hiter : 1 ≤ iterations) (hs : '$' ∉ salt) (hd : '$' ∉ dig) :
    verifyPassword kdf password (encodeCred iterations salt dig) =
      (sccmp dig (kdf password salt iterations)).1 ∧
    verifyCmpCost kdf password (encodeCred iterations salt dig) =
      (sccmp dig (kdf password salt iterations)).2 := by
  rw [verifyPassword, verifyCmpCost, credParse_encodeCred iterations salt dig hiter hs hd]
  exact ⟨rfl, rfl⟩

theorem claim6_rederive_shortcircuit_witness :
    verifyPassword kdfConst (String.toList "pw")
      (encodeCred 1 (String.toList "ab") (String.toList "xz")) =
      (sccmp (String.toList "xz") (kdfConst (String.toList "pw") (String.toList "ab") 1)).1 ∧
    verifyCmpCost kdfConst (String.toList "pw")
      (encodeCred 1 (String.toList "ab") (String.toList "xz")) =
      (sccmp (String.toList "xz") (kdfConst (String.toList "pw") (String.toList "ab") 1)).2 :=
  claim6_rederive_shortcircuit kdfConst (String.toList "pw") (String.toList "ab")
    (String.toList "xz") 1 (by decide) (by decide) (by decide)

/-- C6 counterexample: the digest comparison inside verifyPassword is not
constant-time.  Two credential strings whose stored digests first differ from
the re-derived digest at different positions (position 0 for "zy" vs "xy",
position 1 for "xz" vs "xy") take a different number of character
comparisons (1 vs 2), although both digests have the same length and both
verifications fail.  A comparison whose running time is independent of the
position of the first difference would give equal costs here. -/
theorem claim6_not_constant_time :
    verifyPassword kdfConst (String.toList "pw")
      (encodeCred 1 (String.toList "ab") (String.toList "zy")) = false ∧
    verifyPassword kdfConst (String.toList "pw")
      (encodeCred 1 (String.toList "ab") (String.toList "xz")) = false ∧
    (String.toList "zy").length = (String.toList "xz").length ∧
    verifyCmpCost kdfConst (String.toList "pw")
      (encodeCred 1 (String.toList "ab") (String.toList "zy")) = 1 ∧
    verifyCmpCost kdfConst (String.toList "pw")
      (encodeCred 1 (String.toList "ab") (String.toList "xz")) = 2 := by
  refine ⟨?_, ?_, rfl, ?_, ?_⟩ <;> decide

/-- Single-character mutation: b is obtained from a by replacing exactly one
character with a different one. -/
def OneCharMut (a b : List Char) : Prop :=
  ∃ pre c c2 post, c ≠ c2 ∧ a = pre ++ c :: post ∧ b = pre ++ c2 :: post

theorem OneCharMut_ne (a b : List Char) (h : OneCharMut a b) : a ≠ b := by
  obtain ⟨pre, c, c2, post, hne, ha, hb⟩ := h
  subst ha
  subst hb
  intro he
  exact hne (List.head_eq_of_cons_eq (List.append_cancel_left he))

/-- A mutated position lies either inside the first chunk of a decomposition
or inside the remainder. -/
theorem mut_region (X Y pre post : List Char) (c : Char)
    (h : pre ++ c :: post = X ++ Y) :
    (∃ X1 X2, X = X1 ++ c :: X2 ∧ pre = X1 ∧ post = X2 ++ Y) ∨
    (∃ pre2, pre = X ++ pre2 ∧ Y = pre2 ++ c :: post) := by
  induction X generalizing pre with
  | nil =>
    right
    exact ⟨pre, by simp, by simpa using h.symm⟩
  | cons x X ih =>
    cases pre with
    | nil =>
      left
      rw [List.nil_append, List.cons_append] at h
      obtain ⟨hc, hpost⟩ := List.cons.inj h
      exact ⟨[], X, by rw [hc]; rfl, rfl, hpost⟩
    | cons p ps =>
      rw [List.cons_append, List.cons_append] at h
      obtain ⟨hp, hrest⟩ := List.cons.inj h
      rcases ih ps hrest with ⟨X1, X2, hX, hpre, hpost⟩ | ⟨pre2, hpre, hY⟩
      · left
        exact ⟨x :: X1, X2, by rw [hX, List.cons_append], by rw [hp, hpre], hpost⟩
      · right
        exact ⟨pre2, by rw [hp, hpre, List.cons_append], hY⟩

theorem jsSplitChar_chunk3 (A B C : List Char)
    (hA : '$' ∉ A) (hB : '$' ∉ B) (hC : '$' ∉ C) :
    jsSplitChar '$' (A ++ '$' :: (B ++ '$' :: C)) = [A, B, C] := by
  rw [jsSplitChar_chunk '$' A _ hA, jsSplitChar_chunk '$' B _ hB,
    jsSplitChar_no_sep '$' C hC]

theorem jsSplitChar_chunk4 (A B C D : List Char)
    (hA : '$' ∉ A) (hB : '$' ∉ B) (hC : '$' ∉ C) (hD : '$' ∉ D) :
    jsSplitChar '$' (A ++ '$' :: (B ++ '$' :: (C ++ '$' :: D))) = [A, B, C, D] := by
  rw [jsSplitChar_chunk '$' A _ hA, jsSplitChar_chunk '$' B _ hB,
    jsSplitChar_chunk '$' C _ hC, jsSplitChar_no_sep '$' D hD]

theorem jsSplitChar_chunk5 (A B C D E : List Char)
    (hA : '$' ∉ A) (hB : '$' ∉ B) (hC : '$' ∉ C) (hD : '$' ∉ D) (hE : '$' ∉ E) :
    jsSplitChar '$' (A ++ '$' :: (B ++ '$' :: (C ++ '$' :: (D ++ '$' :: E)))) =
      [A, B, C, D, E] := by
  rw [jsSplitChar_chunk '$' A _ hA, jsSplitChar_chunk '$' B _ hB,
    jsSplitChar_chunk '$' C _ hC, jsSplitChar_chunk '$' D _ hD,
    jsSplitChar_no_sep '$' E hE]

theorem takeWhile_append_stop (p : Char → Bool) (X : List Char) (y : Char)
    (Z : List Char) (hX : ∀ x ∈ X, p x = true) (hy : p y = false) :
    (X ++ y :: Z).takeWhile p = X := by
  induction X with
  | nil => simp [List.takeWhile_cons, hy]
  | cons a X ih =>
    rw [List.cons_append, List.takeWhile_cons, hX a (List.mem_cons_self _ _)]
    simp only [if_true]
    rw [ih (fun x hx => hX x (List.mem_cons_of_mem _ hx))]

theorem dropWhile_all_digit (l : List Char) (h : ∀ c ∈ l, jsDigit c = true) :
    l.dropWhile jsWhitespace = l := by
  cases l with
  | nil => rfl
  | cons c rest =>
    rw [List.dropWhile_cons,
      jsDigit_not_whitespace c (h c (List.mem_cons_self _ _))]
    simp

theorem jsParseIntCore_nonneg (l : List Char) (v : Int)
    (h : jsParseIntCore l = some v) : 0 ≤ v := by
  rw [jsParseIntCore] at h
  by_cases hh : startsHex l = true
  · rw [if_pos hh] at h
    by_cases he : ((l.drop 2).takeWhile jsHexDigit).isEmpty = true
    · rw [if_pos he] at h; cases h
    · rw [if_neg he] at h
      have := Option.some.inj h
      rw [← this]
      exact Int.ofNat_nonneg _
  · rw [if_neg hh] at h
    by_cases he : (l.takeWhile jsDigit).isEmpty = true
    · rw [if_pos he] at h; cases h
    · rw [if_neg he] at h
      have := Option.some.inj h
      rw [← this]
      exact Int.ofNat_nonneg _

theorem jsParseIntCore_all_digit_cons (d : Char) (ds : List Char)
    (h : ∀ c ∈ d :: ds, jsDigit c = true) :
    jsParseIntCore (d :: ds) = some (decVal (d :: ds) : Int) := by
  rw [jsParseIntCore]
  have hhex : startsHex (d :: ds) = false := by
    cases ds with
    | nil => rfl
    | cons x rs =>
      have hx := h x (List.mem_cons_of_mem _ (List.mem_cons_self _ _))
      have hxx : ¬ x = 'x' := by intro he; rw [he] at hx; simp [jsDigit] at hx
      have hxX : ¬ x = 'X' := by intro he; rw [he] at hx; simp [jsDigit] at hx
      simp [startsHex, hxx, hxX]
  rw [hhex]
  simp only [Bool.false_eq_true, if_false]
  rw [List.takeWhile_eq_self_iff.mpr h]
  simp

/-- A digit character with digit value 0 is the character '0'. -/
theorem digit_toNat_48 (c : Char) (_hd : jsDigit c = true) (h : c.toNat = 48) :
    c = '0' := by
  have := congrArg Char.ofNat h
  rwa [Char.ofNat_toNat] at this

/-- Parsing the decimal tail of natRepr N (its digits with the head removed)
never yields N itself when the result is positive. -/
theorem natRepr_tail_val_ne (N : Nat) (c : Char) (B2 : List Char)
    (hB : natRepr N = c :: B2) (h1 : 1 ≤ decVal B2) : decVal B2 ≠ N := by
  intro he
  have hv := natRepr_decVal N
  rw [hB, decVal_cons] at hv
  have hc : jsDigit c = true := by
    have := natRepr_all_digit N
    rw [hB] at this
    exact this c (List.mem_cons_self _ _)
  have hc48 : 48 ≤ c.toNat := by
    simp only [jsDigit, Bool.and_eq_true, decide_eq_true_eq] at hc
    exact hc.1
  have hpow : 0 < 10 ^ B2.length := Nat.pos_pow_of_pos _ (by omega)
  have hzero : (c.toNat - 48) * 10 ^ B2.length = 0 := by omega
  have hcz : c.toNat - 48 = 0 := by
    rcases Nat.mul_eq_zero.mp hzero with h | h
    · exact h
    · omega
  have hc0 : c = '0' := digit_toNat_48 c hc (by omega)
  subst hc0
  exact natRepr_head_ne_zero N (by omega) '0' B2 hB rfl

/-- Central parsing lemma for claim C5: a single-character mutation inside
the iteration-count component of a credential never parses back (via JS
parseInt) to a usable iteration count equal to the original one. -/
theorem iterMut_parse (N : Nat) (B1 B2 : List Char) (c c2 : Char)
    (hB : natRepr N = B1 ++ c :: B2) (hcc : c2 ≠ c) (M : Int)
    (hp : jsParseInt (B1 ++ c2 :: B2) = some M) (hM : 1 ≤ M) : M ≠ (N : Int) := by
  have hAll := natRepr_all_digit N
  rw [hB] at hAll
  have hB1 : ∀ x ∈ B1, jsDigit x = true := fun x hx => hAll x (List.mem_append_left _ hx)
  have hc : jsDigit c = true :=
    hAll c (List.mem_append_right _ (List.mem_cons_self _ _))
  have hB2 : ∀ x ∈ B2, jsDigit x = true := fun x hx =>
    hAll x (List.mem_append_right _ (List.mem_cons_of_mem _ hx))
  by_cases hd2 : jsDigit c2 = true
  · -- the mutated character is still a digit: same-length digit strings with
    -- different content have different values
    have hall' : ∀ x ∈ B1 ++ c2 :: B2, jsDigit x = true := by
      intro x hx
      rcases List.mem_append.mp hx with hx | hx
      · exact hB1 x hx
      · rcases List.mem_cons.mp hx with hx | hx
        · exact hx ▸ hd2
        · exact hB2 x hx
    have hz : ∀ cs, B1 ++ c2 :: B2 ≠ '0' :: 'x' :: cs ∧ B1 ++ c2 :: B2 ≠ '0' :: 'X' :: cs := by
      intro cs
      constructor <;> intro he
      · have hx : 'x' ∈ B1 ++ c2 :: B2 := by rw [he]; simp
        have := hall' 'x' hx
        simp [jsDigit] at this
      · have hx : 'X' ∈ B1 ++ c2 :: B2 := by rw [he]; simp
        have := hall' 'X' hx
        simp [jsDigit] at this
    rw [jsParseInt_all_digit _ (by simp) hall' hz] at hp
    have hMv := Option.some.inj hp
    intro hMN
    rw [hMN] at hMv
    have hvv : decVal (B1 ++ c2 :: B2) = N := by exact_mod_cast hMv
    have hlen : (B1 ++ c2 :: B2).length = (natRepr N).length := by
      rw [hB]; simp
    have heq : B1 ++ c2 :: B2 = natRepr N := by
      have := decVal_inj (B1 ++ c2 :: B2) (natRepr N) hlen hall'
        (natRepr_all_digit N) (by rw [hvv, natRepr_decVal])
      exact this
    rw [hB] at heq
    exact hcc (List.head_eq_of_cons_eq (List.append_cancel_left heq))
  · -- the mutated character is not a digit
    cases B1 with
    | nil =>
      rw [List.nil_append] at hB hp
      by_cases hw2 : jsWhitespace c2 = true
      · -- mutated head is whitespace: parseInt skips it and sees the tail
        have hdw : (c2 :: B2).dropWhile jsWhitespace = B2 := by
          rw [List.dropWhile_cons, hw2]
          simp only [if_true]
          exact dropWhile_all_digit B2 hB2
        simp only [jsParseInt, hdw] at hp
        cases B2 with
        | nil => simp at hp
        | cons d ds =>
          have hd := hB2 d (List.mem_cons_self _ _)
          have hsep := jsDigit_ne_sep_chars d hd
          simp only [] at hp
          rw [if_neg hsep.1, if_neg hsep.2] at hp
          rw [jsParseIntCore_all_digit_cons d ds hB2] at hp
          have hMv := Option.some.inj hp
          intro hMN
          have h1 : 1 ≤ decVal (d :: ds) := by
            have h1i : (1 : Int) ≤ (decVal (d :: ds) : Int) := by rw [hMv]; exact hM
            exact_mod_cast h1i
          have hvv : decVal (d :: ds) = N := by
            have : (decVal (d :: ds) : Int) = (N : Int) := by rw [hMv, hMN]
            exact_mod_cast this
          exact natRepr_tail_val_ne N c (d :: ds) hB h1 hvv
      · -- mutated head is not whitespace and not a digit
        have hdw : (c2 :: B2).dropWhile jsWhitespace = c2 :: B2 := by
          rw [List.dropWhile_cons]
          simp [hw2]
        simp only [jsParseInt, hdw] at hp
        by_cases hm : c2 = '-'
        · rw [if_pos hm] at hp
          cases hcore : jsParseIntCore B2 with
          | none => rw [hcore] at hp; cases hp
          | some v =>
            rw [hcore] at hp
            simp only [Option.map_some'] at hp
            have hv := jsParseIntCore_nonneg B2 v hcore
            have hMv := Option.some.inj hp
            exfalso
            omega
        · rw [if_neg hm] at hp
          by_cases hq : c2 = '+'
          · rw [if_pos hq] at hp
            cases B2 with
            | nil => cases hp
            | cons d ds =>
              rw [jsParseIntCore_all_digit_cons d ds hB2] at hp
              have hMv := Option.some.inj hp
              intro hMN
              have h1 : 1 ≤ decVal (d :: ds) := by
                have h1i : (1 : Int) ≤ (decVal (d :: ds) : Int) := by rw [hMv]; exact hM
                exact_mod_cast h1i
              have hvv : decVal (d :: ds) = N := by
                have : (decVal (d :: ds) : Int) = (N : Int) := by rw [hMv, hMN]
                exact_mod_cast this
              exact natRepr_tail_val_ne N c (d :: ds) hB h1 hvv
          · rw [if_neg hq] at hp
            have hc20 : ¬ c2 = '0' := by
              intro he; rw [he] at hd2; simp [jsDigit] at hd2
            have hhex : startsHex (c2 :: B2) = false := by
              cases B2 with
              | nil => rfl
              | cons x rs => simp [startsHex, hc20]
            rw [jsParseIntCore, hhex] at hp
            simp only [Bool.false_eq_true, if_false] at hp
            simp [hd2] at hp
    | cons b bs =>
      -- the mutation is at position ≥ 1: parseInt reads the digit run before
      -- the mutated character, a proper nonempty prefix of natRepr N
      have hb : jsDigit b = true := hB1 b (List.mem_cons_self _ _)
      have hbs : ∀ x ∈ bs, jsDigit x = true := fun x hx =>
        hB1 x (List.mem_cons_of_mem _ hx)
      have hNpos : 1 ≤ N := by
        by_contra hN0
        have : N = 0 := by omega
        subst this
        have := congrArg List.length hB
        simp [natRepr, natDigitsAux] at this
      have hb0 : b ≠ '0' := by
        refine natRepr_head_ne_zero N hNpos b (bs ++ c :: B2) ?_
        rw [hB, List.cons_append]
      have hdw : (b :: (bs ++ c2 :: B2)).dropWhile jsWhitespace =
          b :: (bs ++ c2 :: B2) := by
        rw [List.dropWhile_cons, jsDigit_not_whitespace b hb]
        simp
      simp only [jsParseInt, List.cons_append, hdw] at hp
      have hsep := jsDigit_ne_sep_chars b hb
      rw [if_neg hsep.1, if_neg hsep.2] at hp
      have hne2 : bs ++ c2 :: B2 ≠ [] := by simp
      obtain ⟨x, t, hxt⟩ := List.exists_cons_of_ne_nil hne2
      have hhex : startsHex (b :: (bs ++ c2 :: B2)) = false := by
        rw [hxt]
        simp [startsHex, hb0]
      rw [jsParseIntCore, hhex] at hp
      simp only [Bool.false_eq_true, if_false] at hp
      have htake : (b :: (bs ++ c2 :: B2)).takeWhile jsDigit = b :: bs := by
        rw [← List.cons_append]
        exact takeWhile_append_stop jsDigit (b :: bs) c2 B2 hB1 (by simpa using hd2)
      rw [htake] at hp
      simp only [List.isEmpty_cons, Bool.false_eq_true, if_false] at hp
      have hMv : M = (decVal (b :: bs) : Int) := (Option.some.inj hp).symm
      intro hMN
      rw [hMN] at hMv
      have hvv : decVal (b :: bs) = N := by exact_mod_cast hMv.symm
      have hNval := natRepr_decVal N
      rw [hB, List.cons_append, ← List.cons_append, decVal_append] at hNval
      have hpow : (10 : Nat) ≤ 10 ^ (c :: B2).length := by
        rw [List.length_cons]
        calc (10 : Nat) = 10 ^ 1 := by norm_num
          _ ≤ 10 ^ (B2.length + 1) := Nat.pow_le_pow_right (by omega) (by omega)
      have hmul : decVal (b :: bs) * 10 ≤ decVal (b :: bs) * 10 ^ (c :: B2).length :=
        Nat.mul_le_mul_left _ hpow
      rw [hvv] at hNval hmul
      omega

theorem verifyPassword_eq_none (kdf : KDF) (password hash : List Char)
    (h : credParse hash = none) : verifyPassword kdf password hash = false := by
  rw [verifyPassword, h]

/-- Structurally malformed input (wrong number of dollar-separated parts)
makes verifyPassword return false. -/
theorem verify_len_ne4_false (kdf : KDF) (password hash : List Char)
    (hlen : (jsSplitChar '$' hash).length ≠ 4) :
    verifyPassword kdf password hash = false := by
  apply verifyPassword_eq_none
  rw [credParse]
  cases ps : jsSplitChar '$' hash with
  | nil => rfl
  | cons a t =>
    cases t with
    | nil => rfl
    | cons b t2 =>
      cases t2 with
      | nil => rfl
      | cons c' t3 =>
        cases t3 with
        | nil => rfl
        | cons d t4 =>
          cases t4 with
          | nil =>
            rw [ps] at hlen
            simp at hlen
          | cons e t5 => rfl

/-- An unrecognized algorithm tag makes verifyPassword return false
(fail closed). -/
theorem verify_bad_tag_false (kdf : KDF) (password hash alg iterS saltp dig : List Char)
    (hsplit : jsSplitChar '$' hash = [alg, iterS, saltp, dig])
    (halg : alg ≠ pbkdf2Tag) : verifyPassword kdf password hash = false := by
  apply verifyPassword_eq_none
  rw [credParse, hsplit]
  simp [halg]

/-- A failing iteration-count parse makes verifyPassword return false. -/
theorem verify_parse_none_false (kdf : KDF)
    (password hash alg iterS saltp dig : List Char)
    (hsplit : jsSplitChar '$' hash = [alg, iterS, saltp, dig])
    (hne : iterS ≠ []) (hnone : jsParseInt iterS = none) :
    verifyPassword kdf password hash = false := by
  apply verifyPassword_eq_none
  rw [credParse, hsplit]
  have hie : iterS.isEmpty = false := by
    cases iterS with
    | nil => exact absurd rfl hne
    | cons a t => rfl
  by_cases halg : alg = pbkdf2Tag
  · simp [halg, hie, hnone]
  · simp [halg]

/-- Mutating a single character of a well-formed credential string makes
verifyPassword return false, for every verifying password satisfying the
stated non-collision hypotheses on the key-derivation function. -/
theorem credParse_four (iterS saltp dig : List Char) (hI : '$' ∉ iterS)
    (hs : '$' ∉ saltp) (hd : '$' ∉ dig) (hne : iterS ≠ []) :
    credParse (pbkdf2Tag ++ '$' :: (iterS ++ '$' :: (saltp ++ '$' :: dig))) =
      match jsParseInt iterS with
      | none => none
      | some m => if 1 ≤ m then some (m.toNat, saltp, dig) else none := by
  rw [credParse, jsSplitChar_chunk4 _ _ _ _ pbkdf2Tag_no_dollar hI hs hd]
  have hie : iterS.isEmpty = false := by
    cases iterS with
    | nil => exact absurd rfl hne
    | cons a t => rfl
  simp only [hie, Bool.false_eq_true, if_false, eq_self_iff_true, if_true]
  cases jsParseInt iterS with
  | none => rfl
  | some m => rfl

theorem credParse_four_none (iterS saltp dig : List Char) (hI : '$' ∉ iterS)
    (hs : '$' ∉ saltp) (hd : '$' ∉ dig) (hne : iterS ≠ [])
    (hpi : jsParseInt iterS = none) :
    credParse (pbkdf2Tag ++ '$' :: (iterS ++ '$' :: (saltp ++ '$' :: dig))) = none := by
  rw [credParse_four iterS saltp dig hI hs hd hne, hpi]

theorem credParse_four_some (iterS saltp dig : List Char) (hI : '$' ∉ iterS)
    (hs : '$' ∉ saltp) (hd : '$' ∉ dig) (hne : iterS ≠ []) (m : Int)
    (hpi : jsParseInt iterS = some m) :
    credParse (pbkdf2Tag ++ '$' :: (iterS ++ '$' :: (saltp ++ '$' :: dig))) =
      if 1 ≤ m then some (m.toNat, saltp, dig) else none := by
  rw [credParse_four iterS saltp dig hI hs hd hne, hpi]

theorem verify_mutation_false (kdf : KDF) (password correctpw salt : List Char)
    (N : Nat) (pre post : List Char) (c c2 : Char)
    (hN : 1 ≤ N) (hsalt : '$' ∉ salt) (hdig : '$' ∉ kdf correctpw salt N)
    (hsplit : generatePasswordHash kdf correctpw salt N = pre ++ c :: post)
    (hne : c2 ≠ c)
    (H1 : ∀ M : Nat, 1 ≤ M → M ≠ N → kdf password salt M ≠ kdf correctpw salt N)
    (H2 : ∀ s : List Char, s ≠ salt → kdf password s N ≠ kdf correctpw salt N)
    (H3 : ∀ d : List Char, OneCharMut (kdf correctpw salt N) d →
      kdf password salt N ≠ d) :
    verifyPassword kdf password (pre ++ c2 :: post) = false := by
  have hsplit' : pre ++ c :: post =
      pbkdf2Tag ++ '$' :: (natRepr N ++ '$' :: (salt ++ '$' :: kdf correctpw salt N)) := by
    rw [← hsplit]; rfl
  have hBnd := natRepr_no_dollar N
  rcases mut_region pbkdf2Tag _ pre post c hsplit' with
    ⟨T1, T2, hT, hpre, hpost⟩ | ⟨pre2, hpre, hrest⟩
  · -- mutation inside the algorithm tag
    have hnd := pbkdf2Tag_no_dollar
    rw [hT] at hnd
    have hT1 : '$' ∉ T1 := fun hm => hnd (List.mem_append_left _ hm)
    have hT2 : '$' ∉ T2 := fun hm =>
      hnd (List.mem_append_right _ (List.mem_cons_of_mem _ hm))
    rw [hpre, hpost]
    by_cases hc2 : c2 = '$'
    · subst hc2
      apply verifyPassword_eq_none
      rw [credParse,
        jsSplitChar_chunk5 T1 T2 (natRepr N) salt (kdf correctpw salt N)
          hT1 hT2 hBnd hsalt hdig]
    · apply verifyPassword_eq_none
      have hform : T1 ++ c2 :: (T2 ++ '$' :: (natRepr N ++ '$' :: (salt ++ '$' :: kdf correctpw salt N))) =
          (T1 ++ c2 :: T2) ++ '$' :: (natRepr N ++ '$' :: (salt ++ '$' :: kdf correctpw salt N)) := by
        simp
      rw [hform]
      have hTd : '$' ∉ T1 ++ c2 :: T2 := by
        intro hm
        rcases List.mem_append.mp hm with hm | hm
        · exact hT1 hm
        · rcases List.mem_cons.mp hm with hm | hm
          · exact hc2 hm.symm
          · exact hT2 hm
      rw [credParse,
        jsSplitChar_chunk4 (T1 ++ c2 :: T2) (natRepr N) salt (kdf correctpw salt N)
          hTd hBnd hsalt hdig]
      have halg : ¬ (T1 ++ c2 :: T2) = pbkdf2Tag := by
        intro he
        rw [hT] at he
        exact hne (List.head_eq_of_cons_eq (List.append_cancel_left he))
      simp [halg]
  · -- mutation at or after the first separator
    cases pre2 with
    | nil =>
      -- the first separator itself was mutated
      rw [List.nil_append] at hrest
      obtain ⟨hcsep, hpost⟩ := List.cons.inj hrest
      have hc2 : c2 ≠ '$' := by rw [← hcsep] at hne; exact hne
      rw [List.append_nil] at hpre
      subst hpre
      subst hpost
      apply verifyPassword_eq_none
      have hform : pbkdf2Tag ++ c2 :: (natRepr N ++ '$' :: (salt ++ '$' :: kdf correctpw salt N)) =
          (pbkdf2Tag ++ c2 :: natRepr N) ++ '$' :: (salt ++ '$' :: kdf correctpw salt N) := by
        simp
      rw [hform]
      have hAd : '$' ∉ pbkdf2Tag ++ c2 :: natRepr N := by
        intro hm
        rcases List.mem_append.mp hm with hm | hm
        · exact pbkdf2Tag_no_dollar hm
        · rcases List.mem_cons.mp hm with hm | hm
          · exact hc2 hm.symm
          · exact hBnd hm
      rw [credParse,
        jsSplitChar_chunk3 (pbkdf2Tag ++ c2 :: natRepr N) salt (kdf correctpw salt N)
          hAd hsalt hdig]
    | cons q pre2' =>
      obtain ⟨hq, hrest2⟩ := List.cons.inj hrest
      rcases mut_region (natRepr N) _ pre2' post c hrest2.symm with
        ⟨B1, B2, hB, hpre2, hpost2⟩ | ⟨pre3, hpre2, hrest3⟩
      · -- mutation inside the iteration count
        have hB1d : '$' ∉ B1 := fun hm => hBnd (hB ▸ List.mem_append_left _ hm)
        have hB2d : '$' ∉ B2 := fun hm =>
          hBnd (hB ▸ List.mem_append_right _ (List.mem_cons_of_mem _ hm))
        rw [hpre, ← hq, hpre2, hpost2]
        by_cases hc2 : c2 = '$'
        · subst hc2
          apply verifyPassword_eq_none
          have hform : (pbkdf2Tag ++ '$' :: B1) ++ '$' :: (B2 ++ '$' :: (salt ++ '$' :: kdf correctpw salt N)) =
              pbkdf2Tag ++ '$' :: (B1 ++ '$' :: (B2 ++ '$' :: (salt ++ '$' :: kdf correctpw salt N))) := by
            simp
          rw [hform, credParse,
            jsSplitChar_chunk5 pbkdf2Tag B1 B2 salt (kdf correctpw salt N)
              pbkdf2Tag_no_dollar hB1d hB2d hsalt hdig]
        · have hBd : '$' ∉ B1 ++ c2 :: B2 := by
            intro hm
            rcases List.mem_append.mp hm with hm | hm
            · exact hB1d hm
            · rcases List.mem_cons.mp hm with hm | hm
              · exact hc2 hm.symm
              · exact hB2d hm
          have hform : (pbkdf2Tag ++ '$' :: B1) ++ c2 :: (B2 ++ '$' :: (salt ++ '$' :: kdf correctpw salt N)) =
              pbkdf2Tag ++ '$' :: ((B1 ++ c2 :: B2) ++ '$' :: (salt ++ '$' :: kdf correctpw salt N)) := by
            simp
          rw [hform]
          cases hpi : jsParseInt (B1 ++ c2 :: B2) with
          | none =>
            exact verifyPassword_eq_none kdf password _
              (credParse_four_none (B1 ++ c2 :: B2) salt (kdf correctpw salt N)
                hBd hsalt hdig (by simp) hpi)
          | some m =>
            rw [verifyPassword,
              credParse_four_some (B1 ++ c2 :: B2) salt (kdf correctpw salt N)
                hBd hsalt hdig (by simp) m hpi]
            by_cases hm : 1 ≤ m
            · have hmN := iterMut_parse N B1 B2 c c2 hB hne m hpi hm
              have hmt1 : 1 ≤ m.toNat := by omega
              have hmtN : m.toNat ≠ N := by
                intro he
                apply hmN
                rw [← he]
                omega
              have hk := H1 m.toNat hmt1 hmtN
              rw [if_pos hm]
              exact sccmp_fst_ne _ _ (fun h => hk h.symm)
            · rw [if_neg hm]
      · -- mutation at or after the second separator
        cases pre3 with
        | nil =>
          -- the second separator itself was mutated
          rw [List.nil_append] at hrest3
          obtain ⟨hcsep, hpost⟩ := List.cons.inj hrest3
          have hc2 : c2 ≠ '$' := by rw [← hcsep] at hne; exact hne
          rw [List.append_nil] at hpre2
          subst hpre2
          subst hpost
          rw [hpre, ← hq]
          apply verifyPassword_eq_none
          have hform : (pbkdf2Tag ++ '$' :: natRepr N) ++ c2 :: (salt ++ '$' :: kdf correctpw salt N) =
              pbkdf2Tag ++ '$' :: ((natRepr N ++ c2 :: salt) ++ '$' :: kdf correctpw salt N) := by
            simp
          rw [hform]
          have hAd : '$' ∉ natRepr N ++ c2 :: salt := by
            intro hm
            rcases List.mem_append.mp hm with hm | hm
            · exact hBnd hm
            · rcases List.mem_cons.mp hm with hm | hm
              · exact hc2 hm.symm
              · exact hsalt hm
          rw [credParse,
            jsSplitChar_chunk3 pbkdf2Tag (natRepr N ++ c2 :: salt) (kdf correctpw salt N)
              pbkdf2Tag_no_dollar hAd hdig]
        | cons q2 pre3' =>
          obtain ⟨hq2, hrest4⟩ := List.cons.inj hrest3
          rcases mut_region salt _ pre3' post c hrest4.symm with
            ⟨S1, S2, hS, hpre3, hpost3⟩ | ⟨pre4, hpre3, hrest5⟩
          · -- mutation inside the salt
            have hS1d : '$' ∉ S1 := fun hm => hsalt (hS ▸ List.mem_append_left _ hm)
            have hS2d : '$' ∉ S2 := fun hm =>
              hsalt (hS ▸ List.mem_append_right _ (List.mem_cons_of_mem _ hm))
            rw [hpre, ← hq, hpre2, ← hq2, hpre3, hpost3]
            by_cases hc2 : c2 = '$'
            · subst hc2
              apply verifyPassword_eq_none
              have hform : (pbkdf2Tag ++ '$' :: (natRepr N ++ '$' :: S1)) ++ '$' :: (S2 ++ '$' :: kdf correctpw salt N) =
                  pbkdf2Tag ++ '$' :: (natRepr N ++ '$' :: (S1 ++ '$' :: (S2 ++ '$' :: kdf correctpw salt N))) := by
                simp
              rw [hform, credParse,
                jsSplitChar_chunk5 pbkdf2Tag (natRepr N) S1 S2 (kdf correctpw salt N)
                  pbkdf2Tag_no_dollar hBnd hS1d hS2d hdig]
            · have hSd : '$' ∉ S1 ++ c2 :: S2 := by
                intro hm
                rcases List.mem_append.mp hm with hm | hm
                · exact hS1d hm
                · rcases List.mem_cons.mp hm with hm | hm
                  · exact hc2 hm.symm
                  · exact hS2d hm
              have hform : (pbkdf2Tag ++ '$' :: (natRepr N ++ '$' :: S1)) ++ c2 :: (S2 ++ '$' :: kdf correctpw salt N) =
                  pbkdf2Tag ++ '$' :: (natRepr N ++ '$' :: ((S1 ++ c2 :: S2) ++ '$' :: kdf correctpw salt N)) := by
                simp
              rw [hform]
              show verifyPassword kdf password (encodeCred N (S1 ++ c2 :: S2) (kdf correctpw salt N)) = false
              rw [verifyPassword,
                credParse_encodeCred N (S1 ++ c2 :: S2) (kdf correctpw salt N) hN hSd hdig]
              have hSne : S1 ++ c2 :: S2 ≠ salt := by
                rw [hS]
                intro he
                exact hne (List.head_eq_of_cons_eq (List.append_cancel_left he))
              have hk := H2 (S1 ++ c2 :: S2) hSne
              exact sccmp_fst_ne _ _ (fun h => hk h.symm)
          · -- mutation at or after the third separator
            cases pre4 with
            | nil =>
              -- the third separator itself was mutated
              rw [List.nil_append] at hrest5
              obtain ⟨hcsep, hpost⟩ := List.cons.inj hrest5
              have hc2 : c2 ≠ '$' := by rw [← hcsep] at hne; exact hne
              rw [List.append_nil] at hpre3
              subst hpost
              rw [hpre, ← hq, hpre2, ← hq2, hpre3]
              apply verifyPassword_eq_none
              have hform : (pbkdf2Tag ++ '$' :: (natRepr N ++ '$' :: salt)) ++ c2 :: kdf correctpw salt N =
                  pbkdf2Tag ++ '$' :: (natRepr N ++ '$' :: (salt ++ c2 :: kdf correctpw salt N)) := by
                simp
              rw [hform]
              have hAd : '$' ∉ salt ++ c2 :: kdf correctpw salt N := by
                intro hm
                rcases List.mem_append.mp hm with hm | hm
                · exact hsalt hm
                · rcases List.mem_cons.mp hm with hm | hm
                  · exact hc2 hm.symm
                  · exact hdig hm
              rw [credParse,
                jsSplitChar_chunk3 pbkdf2Tag (natRepr N) (salt ++ c2 :: kdf correctpw salt N)
                  pbkdf2Tag_no_dollar hBnd hAd]
            | cons q3 pre4' =>
              -- mutation inside the stored digest
              obtain ⟨hq3, hD⟩ := List.cons.inj hrest5
              have hD1d : '$' ∉ pre4' := fun hm =>
                hdig (hD.symm ▸ List.mem_append_left _ hm)
              have hD2d : '$' ∉ post := fun hm =>
                hdig (hD.symm ▸ List.mem_append_right _ (List.mem_cons_of_mem _ hm))
              rw [hpre, ← hq, hpre2, ← hq2, hpre3, ← hq3]
              by_cases hc2 : c2 = '$'
              · subst hc2
                apply verifyPassword_eq_none
                have hform : (pbkdf2Tag ++ '$' :: (natRepr N ++ '$' :: (salt ++ '$' :: pre4'))) ++ '$' :: post =
                    pbkdf2Tag ++ '$' :: (natRepr N ++ '$' :: (salt ++ '$' :: (pre4' ++ '$' :: post))) := by
                  simp
                rw [hform, credParse,
                  jsSplitChar_chunk5 pbkdf2Tag (natRepr N) salt pre4' post
                    pbkdf2Tag_no_dollar hBnd hsalt hD1d hD2d]
              · have hDd : '$' ∉ pre4' ++ c2 :: post := by
                  intro hm
                  rcases List.mem_append.mp hm with hm | hm
                  · exact hD1d hm
                  · rcases List.mem_cons.mp hm with hm | hm
                    · exact hc2 hm.symm
                    · exact hD2d hm
                have hform : (pbkdf2Tag ++ '$' :: (natRepr N ++ '$' :: (salt ++ '$' :: pre4'))) ++ c2 :: post =
                    pbkdf2Tag ++ '$' :: (natRepr N ++ '$' :: (salt ++ '$' :: (pre4' ++ c2 :: post))) := by
                  simp
                rw [hform]
                show verifyPassword kdf password (encodeCred N salt (pre4' ++ c2 :: post)) = false
                rw [verifyPassword,
                  credParse_encodeCred N salt (pre4' ++ c2 :: post) hN hsalt hDd]
                have hmut : OneCharMut (kdf correctpw salt N) (pre4' ++ c2 :: post) :=
                  ⟨pre4', c, c2, post, Ne.symm hne, hD, rfl⟩
                have hk := H3 (pre4' ++ c2 :: post) hmut
                exact sccmp_fst_ne _ _ (fun h => hk h.symm)

theorem natRepr_inj (a b : Nat) (h : natRepr a = natRepr b) : a = b := by
  have ha := natRepr_decVal a
  rw [h, natRepr_decVal b] at ha
  omega

/-- Stand-in key-derivation function depending on salt and iterations,
used by the mutation witness. -/
def kdfSalt : KDF := fun _ salt iterations => salt ++ natRepr iterations

/-- C5: verifyPassword is a total Boolean function (the source's try/catch
at src/src/crypto.ts:129-143 turns every internal throw into false, modelled
here by the none-branches of credParse), and it fails closed: it returns
false when the dollar-split does not give exactly four parts, when the
algorithm tag is not the recognized one, and when the iteration count fails
to parse; and mutating any single character of a validly encoded credential
string makes it return false for every password, under the non-collision
hypotheses on the key-derivation function that express PBKDF2's expected
cryptographic behaviour (changing the iteration count, the salt, or any
digest character never reproduces the stored digest). -/
theorem claim5_verify_fail_closed :
    (∀ (kdf : KDF) (password hash : List Char),
        (jsSplitChar '$' hash).length ≠ 4 →
        verifyPassword kdf password hash = false) ∧
    (∀ (kdf : KDF) (password hash alg iterS saltp dig : List Char),
        jsSplitChar '$' hash = [alg, iterS, saltp, dig] → alg ≠ pbkdf2Tag →
        verifyPassword kdf password hash = false) ∧
    (∀ (kdf : KDF) (password hash alg iterS saltp dig : List Char),
        jsSplitChar '$' hash = [alg, iterS, saltp, dig] → iterS ≠ [] →
        jsParseInt iterS = none → verifyPassword kdf password hash = false) ∧
    (∀ (kdf : KDF) (password correctpw salt : List Char) (N : Nat)
        (pre post : List Char) (c c2 : Char),
        1 ≤ N → '$' ∉ salt → '$' ∉ kdf correctpw salt N →
        generatePasswordHash kdf correctpw salt N = pre ++ c :: post →
        c2 ≠ c →
        (∀ M : Nat, 1 ≤ M → M ≠ N → kdf password salt M ≠ kdf correctpw salt N) →
        (∀ s : List Char, s ≠ salt → kdf password s N ≠ kdf correctpw salt N) →
        (∀ d : List Char, OneCharMut (kdf correctpw salt N) d →
          kdf password salt N ≠ d) →
        verifyPassword kdf password (pre ++ c2 :: post) = false) :=
  ⟨verify_len_ne4_false, verify_bad_tag_false, verify_parse_none_false,
   verify_mutation_false⟩

theorem claim5_verify_fail_closed_witness :
    verifyPassword kdfToy (String.toList "pw")
      (String.toList "pbkdf2_sha512$1$ab") = false ∧
    verifyPassword kdfToy (String.toList "pw")
      (String.toList "bad$1$ab$cd") = false ∧
    verifyPassword kdfToy (String.toList "pw")
      (String.toList "pbkdf2_sha512$zz$ab$cd") = false ∧
    verifyPassword kdfSalt (String.toList "q")
      (String.toList "xbkdf2_sha512$2$ab$ab2") = false := by
  refine ⟨?_, ?_, ?_, ?_⟩
  · exact claim5_verify_fail_closed.1 kdfToy (String.toList "pw") _ (by decide)
  · exact claim5_verify_fail_closed.2.1 kdfToy (String.toList "pw") _
      (String.toList "bad") (String.toList "1") (String.toList "ab")
      (String.toList "cd") (by decide) (by decide)
  · exact claim5_verify_fail_closed.2.2.1 kdfToy (String.toList "pw") _
      pbkdf2Tag (String.toList "zz") (String.toList "ab") (String.toList "cd")
      (by decide) (by decide) (by decide)
  · exact claim5_verify_fail_closed.2.2.2 kdfSalt (String.toList "q")
      (String.toList "p") (String.toList "ab") 2 []
      (String.toList "bkdf2_sha512$2$ab$ab2") 'p' 'x'
      (by decide) (by decide) (by decide) (by decide) (by decide)
      (fun M hM1 hMN he => hMN (natRepr_inj M 2 (List.append_cancel_left he)))
      (fun s hs he => hs (List.append_cancel_right he))
      (fun d hmut he => OneCharMut_ne _ d hmut he)

/-- Path strings are split into segments on the POSIX separator. -/
def splitSlash (p : List Char) : List (List Char) := jsSplitChar '/' p

/-- Segment normalization of Node's path resolution for absolute paths
(dot and empty segments dropped, dot-dot pops one segment and clamps at the
root).  The accumulated stack is kept most-recent-first. -/
def normStep (st : List (List Char)) (seg : List Char) : List (List Char) :=
  if seg = [] || seg = ['.'] then st
  else if seg = ['.', '.'] then st.tail
  else seg :: st

def normSegsR (segs : List (List Char)) : List (List Char) :=
  segs.foldl normStep []

/-- Render a normalized absolute path from its forward-order segment list. -/
def renderAux (segs : List (List Char)) : List Char :=
  segs.foldl (fun acc s => acc ++ '/' :: s) []

def renderAbs (segs : List (List Char)) : List Char :=
  if segs.isEmpty then ['/'] else renderAux segs

/-- Model of POSIX `path.resolve` on an absolute input (the only use in the
modelled code: both arguments of isPathSafe are already absolute, extractTo
being `path.resolve(outputPath)` and the entry path `path.join(extractTo,
entry.fileName)`). -/
def jsResolveAbs (p : List Char) : List Char :=
  renderAbs (normSegsR (splitSlash p)).reverse

/-- Model of POSIX `path.join(a, b)` for an absolute first argument
(src/unnamed/part_002:140): concatenate with a separator, then normalize.
A trailing separator on an entry name designating a directory is dropped by
this model; it is irrelevant to which filesystem object the path denotes. -/
def jsJoin (a b : List Char) : List Char :=
  renderAbs (normSegsR (splitSlash (a ++ '/' :: b))).reverse

/-- Model of `SimplZip.isPathSafe` (src/unnamed/part_002:215-225): resolve
both paths and accept when the resolved target starts with the resolved root
plus separator or equals the resolved root.  The source's try/catch is
vacuous here because the path model is total. -/
def isPathSafe (targetPath allowedRoot : List Char) : Bool :=
  let resolvedTarget := jsResolveAbs targetPath
  let resolvedRoot := jsResolveAbs allowedRoot
  (resolvedRoot ++ ['/']).isPrefixOf resolvedTarget || resolvedTarget == resolvedRoot

/-- One archive entry as surfaced by the container library (yauzl): a name
and, for file entries, the byte content.  Directory entries are recognized by
their trailing slash, as in the source (src/unnamed/part_002:148). -/
structure ZEntry where
  name : List Char
  content : List Char
deriving DecidableEq

/-- The archive container as visible to SimplZip.unzip: the container-level
comment and the entry stream.  The compression codec (archiver/yauzl and
zlib) is external to the repository and modelled as lossless. -/
structure Container where
  comment : List Char
  entries : List ZEntry
deriving DecidableEq

/-- The password-protection marker (src/unnamed/part_002:58 and 127). -/
def markerChars : List Char := String.toList "SZIP_PASSWORD_PROTECTED:"

/-- Model of `SimplZip.checkPasswordProtection` (src/unnamed/part_002:176-189):
the archive counts as protected when the comment contains the marker.  A
missing comment is the empty string. -/
def checkPasswordProtection (comment : List Char) : Bool :=
  containsSub markerChars comment

def endsWithSlash (l : List Char) : Bool :=
  match l.getLast? with
  | some c => c = '/'
  | none => false

/-- Model of the per-entry loop of `SimplZip.unzip`
(src/unnamed/part_002:139-165).  For each entry the target path is
`path.join(extractTo, entry.fileName)`; an entry failing isPathSafe is
skipped and recorded as a warning (Logger.warn 103) and processing continues;
a directory entry (trailing slash) creates a directory, a file entry writes
its content.  The result collects the performed writes (path, none for a
directory, some content for a file) and the warnings. -/
def processEntries (extractTo : List Char) :
    List ZEntry → List (List Char × Option (List Char)) × List (List Char)
  | [] => ([], [])
  | e :: rest =>
    let entryPath := jsJoin extractTo e.name
    let r := processEntries extractTo rest
    if isPathSafe entryPath extractTo then
      if endsWithSlash e.name then ((entryPath, none) :: r.1, r.2)
      else ((entryPath, some e.content) :: r.1, r.2)
    else (r.1, e.name :: r.2)

inductive UnzipOutcome where
  | passwordRequired
  | incorrectPassword
  | extracted (directory : List Char)
      (writes : List (List Char × Option (List Char)))
      (warnings : List (List Char))
deriving DecidableEq

/-- JavaScript truthiness of the optional password string: both an absent
password (undefined) and a supplied empty string are falsy, as in the
source's `!password` (src/unnamed/part_002:117) and `password &&` (line
126). -/
def pwTruthy (password : Option (List Char)) : Bool :=
  match password with
  | none => false
  | some pw => !pw.isEmpty

/-- Model of `SimplZip.unzip` (src/unnamed/part_002:108-174).  The password
gate precedes all entry processing, exactly as in the source: the
PasswordRequired check (lines 116-119, on the falsy `!password`) runs before
the container is opened, and the credential verification (lines 126-135,
guarded by the truthiness of `password` and of the comment) runs before the
first readEntry call, so both failure outcomes read no entries and write no
files. -/
def unzipModel (kdf : KDF) (c : Container) (extractTo : List Char)
    (password : Option (List Char)) : UnzipOutcome :=
  if checkPasswordProtection c.comment && !pwTruthy password then
    .passwordRequired
  else
    let gateFail : Bool :=
      match password with
      | some pw =>
        if !pw.isEmpty && !c.comment.isEmpty then
          let commentParts := jsSplitStr markerChars c.comment
          if commentParts.length = 2 then
            let storedHash := commentParts.getD 1 []
            !storedHash.isEmpty && !verifyPassword kdf pw storedHash
          else false
        else false
      | none => false
    if gateFail then .incorrectPassword
    else
      .extracted extractTo (processEntries extractTo c.entries).1
        (processEntries extractTo c.entries).2

/-- C1: during extraction, every write performed by the entry loop has a
resolved target equal to the resolved output root or strictly below it
(resolved root plus separator as a prefix); every entry failing the check is
skipped with a warning carrying its name, not written, and the remaining
entries are still processed (the warnings are exactly the unsafe entries and
the writes exactly the safe ones, in order). -/
theorem claim1_extraction_path_safety (extractTo : List Char) (entries : List ZEntry) :
    (∀ w ∈ (processEntries extractTo entries).1,
        jsResolveAbs w.1 = jsResolveAbs extractTo ∨
        (jsResolveAbs extractTo ++ ['/']) <+: jsResolveAbs w.1) ∧
    (processEntries extractTo entries).2 =
      (entries.filter
        (fun e => ! isPathSafe (jsJoin extractTo e.name) extractTo)).map ZEntry.name ∧
    (processEntries extractTo entries).1.map Prod.fst =
      (entries.filter
        (fun e => isPathSafe (jsJoin extractTo e.name) extractTo)).map
        (fun e => jsJoin extractTo e.name) := by
  induction entries with
  | nil => exact ⟨fun w hw => absurd hw (List.not_mem_nil w), rfl, rfl⟩
  | cons e rest ih =>
    obtain ⟨ih1, ih2, ih3⟩ := ih
    by_cases hsafe : isPathSafe (jsJoin extractTo e.name) extractTo = true
    · have hdisj : jsResolveAbs (jsJoin extractTo e.name) = jsResolveAbs extractTo ∨
          (jsResolveAbs extractTo ++ ['/']) <+: jsResolveAbs (jsJoin extractTo e.name) := by
        rw [isPathSafe] at hsafe
        simp only [Bool.or_eq_true] at hsafe
        rcases hsafe with h | h
        · right
          exact List.isPrefixOf_iff_prefix.mp h
        · left
          exact beq_iff_eq.mp h
      by_cases hdir : endsWithSlash e.name = true
      · refine ⟨?_, ?_, ?_⟩
        · intro w hw
          simp only [processEntries, hsafe, if_true, hdir] at hw
          rcases List.mem_cons.mp hw with hw | hw
          · rw [hw]
            exact hdisj
          · exact ih1 w hw
        · simp only [processEntries, hsafe, if_true, hdir, List.filter_cons, Bool.not_true,
            Bool.false_eq_true]
          exact ih2
        · simp only [processEntries, hsafe, if_true, hdir, List.filter_cons, List.map_cons]
          rw [ih3]
      · refine ⟨?_, ?_, ?_⟩
        · intro w hw
          simp only [processEntries, hsafe, if_true, hdir, Bool.false_eq_true, if_false] at hw
          rcases List.mem_cons.mp hw with hw | hw
          · rw [hw]
            exact hdisj
          · exact ih1 w hw
        · simp only [processEntries, hsafe, if_true, hdir, List.filter_cons, Bool.not_true,
            Bool.false_eq_true, if_false]
          exact ih2
        · simp only [processEntries, hsafe, if_true, hdir, Bool.false_eq_true, if_false,
            List.filter_cons, List.map_cons]
          rw [ih3]
    · have hsafe' : isPathSafe (jsJoin extractTo e.name) extractTo = false :=
        Bool.eq_false_iff.mpr hsafe
      refine ⟨?_, ?_, ?_⟩
      · intro w hw
        simp only [processEntries, hsafe', Bool.false_eq_true, if_false] at hw
        exact ih1 w hw
      · simp only [processEntries, hsafe', Bool.false_eq_true, if_false, List.filter_cons,
          Bool.not_false, if_true, List.map_cons]
        rw [ih2]
      · simp only [processEntries, hsafe', Bool.false_eq_true, if_false, List.filter_cons]
        exact ih3

/-- Demonstration archive for the path-safety witness: one traversal entry
(the spec's own example name) and one benign file entry. -/
def demoEntries : List ZEntry :=
  [⟨String.toList "../../etc/passed.txt", []⟩,
   ⟨String.toList "sub/a.txt", String.toList "hi"⟩]

theorem claim1_extraction_path_safety_witness :
    (processEntries (String.toList "/out") demoEntries).2 =
      (demoEntries.filter
        (fun e => ! isPathSafe (jsJoin (String.toList "/out") e.name)
          (String.toList "/out"))).map ZEntry.name ∧
    (processEntries (String.toList "/out") demoEntries).2 =
      [String.toList "../../etc/passed.txt"] ∧
    (processEntries (String.toList "/out") demoEntries).1 =
      [(String.toList "/out/sub/a.txt", some (String.toList "hi"))] :=
  ⟨(claim1_extraction_path_safety (String.toList "/out") demoEntries).2.1,
   by decide, by decide⟩

theorem markerChars_head : markerChars = 'S' :: String.toList "ZIP_PASSWORD_PROTECTED:" := by
  decide

theorem no_S_no_marker (h : List Char) (hS : 'S' ∉ h) :
    containsSub markerChars h = false := by
  cases hcc : containsSub markerChars h
  · rfl
  · rw [markerChars_head] at hcc
    exact absurd (head_mem_of_containsSub 'S' _ h hcc) hS

theorem genHash_no_S (kdf : KDF) (pw salt : List Char) (N : Nat)
    (hsS : 'S' ∉ salt) (hdS : 'S' ∉ kdf pw salt N) :
    'S' ∉ generatePasswordHash kdf pw salt N := by
  intro hm
  rw [generatePasswordHash, encodeCred] at hm
  simp only [List.mem_append, List.mem_cons] at hm
  rcases hm with hm | hm | hm | hm | hm | hm
  · exact absurd hm (by decide)
  · exact absurd hm (by decide)
  · exact absurd (natRepr_all_digit N 'S' hm) (by decide)
  · exact absurd hm (by decide)
  · exact hsS hm
  · rcases hm with hm | hm
    · exact absurd hm (by decide)
    · exact hdS hm

theorem genHash_ne_nil (kdf : KDF) (pw salt : List Char) (N : Nat) :
    generatePasswordHash kdf pw salt N ≠ [] := by
  rw [generatePasswordHash, encodeCred]
  simp [pbkdf2Tag]

/-- C2: for an archive whose comment is the marker followed by the encoded
credential (exactly what SimplZip.zip writes at src/unnamed/part_002:57-58),
extraction with no password fails with PasswordRequired before reading any
entry; a supplied empty password is falsy in the source's `!password` check
and also fails with PasswordRequired; extraction with a wrong nonempty
password (one whose derived digest differs) fails with IncorrectPassword,
reading no entries and writing no files; and extraction with the correct
password proceeds to the entry loop.  The correct password is nonempty
because SimplZip.zip only writes the marker for a truthy password
(src/unnamed/part_002:55); the dollar-free and S-free hypotheses hold for
the hex salts and digests the source produces; hww is the expected
non-collision of PBKDF2. -/
theorem claim2_password_gate (kdf : KDF) (pw wrong salt : List Char) (N : Nat)
    (extractTo : List Char) (entries : List ZEntry)
    (hN : 1 ≤ N) (hpne : pw ≠ []) (hwne : wrong ≠ [])
    (hs : '$' ∉ salt) (hd : '$' ∉ kdf pw salt N)
    (hsS : 'S' ∉ salt) (hdS : 'S' ∉ kdf pw salt N)
    (hww : kdf wrong salt N ≠ kdf pw salt N) :
    unzipModel kdf ⟨markerChars ++ generatePasswordHash kdf pw salt N, entries⟩
      extractTo none = .passwordRequired ∧
    unzipModel kdf ⟨markerChars ++ generatePasswordHash kdf pw salt N, entries⟩
      extractTo (some []) = .passwordRequired ∧
    unzipModel kdf ⟨markerChars ++ generatePasswordHash kdf pw salt N, entries⟩
      extractTo (some wrong) = .incorrectPassword ∧
    unzipModel kdf ⟨markerChars ++ generatePasswordHash kdf pw salt N, entries⟩
      extractTo (some pw) =
      .extracted extractTo (processEntries extractTo entries).1
        (processEntries extractTo entries).2 := by
  have hnoS : 'S' ∉ generatePasswordHash kdf pw salt N :=
    genHash_no_S kdf pw salt N hsS hdS
  have hocc : containsSub markerChars (generatePasswordHash kdf pw salt N) = false :=
    no_S_no_marker _ hnoS
  have hprot : checkPasswordProtection
      (markerChars ++ generatePasswordHash kdf pw salt N) = true := by
    rw [checkPasswordProtection]
    exact containsSub_of_isPrefixOf _ _
      (List.isPrefixOf_iff_prefix.mpr ⟨generatePasswordHash kdf pw salt N, rfl⟩)
  have hsplit2 : jsSplitStr markerChars
      (markerChars ++ generatePasswordHash kdf pw salt N) =
      [[], generatePasswordHash kdf pw salt N] := by
    rw [markerChars_head]
    apply jsSplitStr_marker_prefix
    rw [← markerChars_head]
    exact hocc
  have hcne : (markerChars ++ generatePasswordHash kdf pw salt N).isEmpty = false := by
    rw [markerChars_head]
    rfl
  have hhne : (generatePasswordHash kdf pw salt N).isEmpty = false := by
    cases hc : generatePasswordHash kdf pw salt N with
    | nil => exact absurd hc (genHash_ne_nil kdf pw salt N)
    | cons a t => rfl
  have hvw : verifyPassword kdf wrong (generatePasswordHash kdf pw salt N) = false :=
    verifyPassword_other kdf pw wrong salt N hN hs hd hww
  have hvc : verifyPassword kdf pw (generatePasswordHash kdf pw salt N) = true :=
    verifyPassword_correct kdf pw salt N hN hs hd
  have hpE : pw.isEmpty = false := by
    cases pw with
    | nil => exact absurd rfl hpne
    | cons a t => rfl
  have hwE : wrong.isEmpty = false := by
    cases wrong with
    | nil => exact absurd rfl hwne
    | cons a t => rfl
  refine ⟨?_, ?_, ?_, ?_⟩
  · simp [unzipModel, pwTruthy, hprot]
  · simp [unzipModel, pwTruthy, hprot]
  · simp [unzipModel, pwTruthy, hprot, hwE, hcne, hsplit2, hhne, hvw]
  · simp [unzipModel, pwTruthy, hprot, hpE, hcne, hsplit2, hhne, hvc]

theorem claim2_password_gate_witness :
    unzipModel kdfToy
      ⟨markerChars ++ generatePasswordHash kdfToy (String.toList "p@ss")
        (String.toList "ab12") 2, []⟩ (String.toList "/out") none =
      .passwordRequired ∧
    unzipModel kdfToy
      ⟨markerChars ++ generatePasswordHash kdfToy (String.toList "p@ss")
        (String.toList "ab12") 2, []⟩ (String.toList "/out")
        (some []) = .passwordRequired ∧
    unzipModel kdfToy
      ⟨markerChars ++ generatePasswordHash kdfToy (String.toList "p@ss")
        (String.toList "ab12") 2, []⟩ (String.toList "/out")
        (some (String.toList "wrong")) = .incorrectPassword ∧
    unzipModel kdfToy
      ⟨markerChars ++ generatePasswordHash kdfToy (String.toList "p@ss")
        (String.toList "ab12") 2, []⟩ (String.toList "/out")
        (some (String.toList "p@ss")) =
      .extracted (String.toList "/out")
        (processEntries (String.toList "/out") []).1
        (processEntries (String.toList "/out") []).2 :=
  claim2_password_gate kdfToy (String.toList "p@ss") (String.toList "wrong")
    (String.toList "ab12") 2 (String.toList "/out") [] (by decide) (by decide)
    (by decide) (by decide) (by decide) (by decide) (by decide) (by decide)

/-- C10: when the container comment does not contain the password-protection
marker, extraction with any supplied password behaves exactly as extraction
with no password: credential verification never runs, the outcome is never
IncorrectPassword, and the entry loop proceeds. -/
theorem claim10_no_marker_ignores_password (kdf : KDF) (comment extractTo : List Char)
    (entries : List ZEntry) (pw : List Char)
    (h : containsSub markerChars comment = false) :
    unzipModel kdf ⟨comment, entries⟩ extractTo (some pw) =
      unzipModel kdf ⟨comment, entries⟩ extractTo none ∧
    unzipModel kdf ⟨comment, entries⟩ extractTo (some pw) =
      .extracted extractTo (processEntries extractTo entries).1
        (processEntries extractTo entries).2 := by
  have hchk : checkPasswordProtection comment = false := h
  cases comment with
  | nil => simp [unzipModel, pwTruthy, checkPasswordProtection, containsSub, markerChars]
  | cons c0 crest =>
    have hsplit1 : jsSplitStr markerChars (c0 :: crest) = [c0 :: crest] := by
      rw [markerChars_head]
      apply jsSplitStr_no_occurrence
      rw [← markerChars_head]
      exact h
    constructor
    · simp [unzipModel, pwTruthy, hchk, hsplit1]
    · simp [unzipModel, pwTruthy, hchk, hsplit1]

theorem claim10_no_marker_ignores_password_witness :
    unzipModel kdfToy ⟨String.toList "plain comment", demoEntries⟩
      (String.toList "/out") (some (String.toList "anything")) =
      unzipModel kdfToy ⟨String.toList "plain comment", demoEntries⟩
        (String.toList "/out") none ∧
    unzipModel kdfToy ⟨String.toList "plain comment", demoEntries⟩
      (String.toList "/out") (some (String.toList "anything")) =
      .extracted (String.toList "/out")
        (processEntries (String.toList "/out") demoEntries).1
        (processEntries (String.toList "/out") demoEntries).2 :=
  claim10_no_marker_ignores_password kdfToy (String.toList "plain comment")
    (String.toList "/out") demoEntries (String.toList "anything") (by decide)

def dropTrailingSlashes (l : List Char) : List Char :=
  (l.reverse.dropWhile (fun c => c = '/')).reverse

def afterLastSlash (l : List Char) : List Char :=
  (l.reverse.takeWhile (fun c => c ≠ '/')).reverse

/-- Model of POSIX `path.basename(p)`: the last path segment, ignoring
trailing separators. -/
def jsBasename (p : List Char) : List Char :=
  afterLastSlash (dropTrailingSlashes p)

/-- Model of POSIX `path.basename(p, ext)`: the basename with the suffix
`ext` removed when the basename ends with it and is not `ext` itself. -/
def jsBasenameExt (p ext : List Char) : List Char :=
  let b := jsBasename p
  if !ext.isEmpty && ext.isSuffixOf b && b ≠ ext then
    b.take (b.length - ext.length)
  else b

/-- Model of POSIX `path.extname(p)`: the suffix of the basename from its
last dot, empty when there is no dot or the only dot is the leading one, and
empty on the special names "." and "..". -/
def jsExtname (p : List Char) : List Char :=
  let b := jsBasename p
  if b = ['.'] || b = ['.', '.'] then []
  else
    let revTail := b.reverse.takeWhile (fun c => c ≠ '.')
    if revTail.length = b.length then []
    else if revTail.length + 1 = b.length then []
    else '.' :: revTail.reverse

def jsToUpper (l : List Char) : List Char := l.map Char.toUpper

def jsToLower (l : List Char) : List Char := l.map Char.toLower

/-- Reserved Windows device names (src/unnamed/part_003:126-128). -/
def reservedNames : List (List Char) :=
  ["CON", "PRN", "AUX", "NUL", "COM1", "COM2", "COM3", "COM4",
   "COM5", "COM6", "COM7", "COM8", "COM9", "LPT1", "LPT2",
   "LPT3", "LPT4", "LPT5", "LPT6", "LPT7", "LPT8", "LPT9"].map String.toList

/-- The DANGEROUS_EXTENSIONS list (src/unnamed/part_003:83). -/
def dangerousExts : List (List Char) :=
  [".exe", ".bat", ".cmd", ".com", ".scr", ".vbs", ".js"].map String.toList

/-- A character rejected by the regex at src/unnamed/part_003:123
(the class excluded by the pattern caret-open-bracket
less greater colon quote pipe question star x00-x1f x7f). -/
def isDangerChar (c : Char) : Bool :=
  c = '<' || c = '>' || c = ':' || c = '"' || c = '|' || c = '?' || c = '*' ||
  c.toNat ≤ 0x1f || c.toNat = 0x7f

/-- Model of `SecurityUtils.validateFilename` (src/unnamed/part_003:118-138):
reject empty or overlong names, names containing a character from the
dangerous class, reserved Windows base names, and dangerous extensions. -/
def validateFilename (filename : List Char) : Bool :=
  if filename.isEmpty then false
  else if 255 < filename.length then false
  else if filename.any isDangerChar then false
  else
    let baseName := jsToUpper (jsBasenameExt filename (jsExtname filename))
    if reservedNames.contains baseName then false
    else if dangerousExts.contains (jsToLower (jsExtname filename)) then false
    else true

/-- C7 counterexample: the extraction path-safety check (isPathSafe) does
not reject entry names containing embedded control characters — the name
"a<SOH>b" (with the control character U+0001) joins to a path inside the
root and isPathSafe accepts it; and the separate filename validator
validateFilename, which does reject control characters, accepts the
traversal name "../../etc/passwd".  So no path-safety validation in the
source rejects control-character names in addition to traversal names. -/
theorem claim7_control_chars_cex :
    isPathSafe (jsJoin (String.toList "/out") (String.toList "a\x01b"))
      (String.toList "/out") = true ∧
    '\x01' ∈ String.toList "a\x01b" ∧
    validateFilename (String.toList "../../etc/passwd") = true :=
  ⟨by decide, by decide, by decide⟩

/-- C7 (amended): rejection of names with embedded control characters is
provided only by SecurityUtils.validateFilename (which returns false for
every name containing a character in x00-x1f or x7f), not by the extraction
path-safety check; isPathSafe rejects traversal that escapes the root, as on
the spec's example entry name. -/
theorem claim7_filename_validation (name : List Char)
    (h : ∃ c ∈ name, c.toNat ≤ 0x1f ∨ c.toNat = 0x7f) :
    validateFilename name = false ∧
    isPathSafe (jsJoin (String.toList "/out") (String.toList "../../etc/passed.txt"))
      (String.toList "/out") = false := by
  constructor
  · obtain ⟨c, hc, hprop⟩ := h
    have hne : name.isEmpty = false := by
      cases name with
      | nil => exact absurd hc (List.not_mem_nil c)
      | cons a t => rfl
    have hany : name.any isDangerChar = true :=
      List.any_eq_true.mpr ⟨c, hc, by simp [isDangerChar]; omega⟩
    simp [validateFilename, hne, hany]
  · decide

theorem claim7_filename_validation_witness :
    validateFilename (String.toList "a\x00b") = false ∧
    isPathSafe (jsJoin (String.toList "/out") (String.toList "../../etc/passed.txt"))
      (String.toList "/out") = false :=
  claim7_filename_validation (String.toList "a\x00b") ⟨'\x00', by decide, by decide⟩

/-- Model of JavaScript `Math.round`: round half away from zero upwards,
`Math.round(x) = floor(x + 1/2)`.  Number arithmetic is modelled exactly
over the rationals; the source computes in IEEE doubles, whose rounding
differences are immaterial at the magnitudes involved. -/
def jsMathRound (q : ℚ) : ℤ := ⌊q + 1 / 2⌋

/-- Model of the compressionRatio field returned by SimplZip.zip
(src/unnamed/part_002:64 and 82): the raw percentage
`(originalSize - size) / originalSize * 100` guarded by `originalSize > 0`
(0 otherwise), then rounded to two decimals by
`Math.round(ratio * 100) / 100`. -/
def zipRatioField (originalSize size : ℚ) : ℚ :=
  let compressionRatio :=
    if 0 < originalSize then (originalSize - size) / originalSize * 100 else 0
  (jsMathRound (compressionRatio * 100) : ℚ) / 100

/-- C8 counterexample: the returned compression ratio does not equal the
raw formula (uncompressed - compressed) / uncompressed * 100; at
originalSize 3 and size 1 the raw value is 200/3 while the field holds the
two-decimal rounding 66.67. -/
theorem claim8_ratio_cex :
    zipRatioField 3 1 ≠ (3 - 1) / 3 * 100 ∧
    zipRatioField 3 1 = 6667 / 100 := by
  constructor
  · norm_num [zipRatioField, jsMathRound]
  · norm_num [zipRatioField, jsMathRound]

/-- C8 (amended): the compression ratio returned on stream close equals the
formula (uncompressed - compressed) / uncompressed * 100 rounded to two
decimal places, is reported as 0 when the uncompressed total is 0, and is
zero or negative when compression did not shrink the data. -/
theorem claim8_ratio_rounded (u s : ℚ) :
    (u = 0 → zipRatioField u s = 0) ∧
    (0 < u → zipRatioField u s = (jsMathRound ((u - s) / u * 100 * 100) : ℚ) / 100) ∧
    (0 < u → u ≤ s → zipRatioField u s ≤ 0) := by
  refine ⟨?_, ?_, ?_⟩
  · intro h
    subst h
    norm_num [zipRatioField, jsMathRound]
  · intro h
    rw [zipRatioField]
    simp only [if_pos h]
  · intro hu hs
    rw [zipRatioField]
    simp only [if_pos hu]
    have hraw : (u - s) / u * 100 ≤ 0 := by
      apply mul_nonpos_of_nonpos_of_nonneg
      · apply div_nonpos_of_nonpos_of_nonneg
        · linarith
        · linarith
      · norm_num
    have hr100 : (u - s) / u * 100 * 100 ≤ 0 := by
      apply mul_nonpos_of_nonpos_of_nonneg hraw
      norm_num
    have hfl : jsMathRound ((u - s) / u * 100 * 100) ≤ 0 := by
      rw [jsMathRound]
      have : (u - s) / u * 100 * 100 + 1 / 2 < 1 := by linarith
      have h1 := Int.floor_lt.mpr (by exact_mod_cast this :
        (u - s) / u * 100 * 100 + 1 / 2 < ((1 : ℤ) : ℚ))
      omega
    have : ((jsMathRound ((u - s) / u * 100 * 100) : ℚ)) ≤ 0 := by exact_mod_cast hfl
    linarith

theorem claim8_ratio_rounded_witness :
    zipRatioField 0 5 = 0 ∧
    zipRatioField 3 1 = (jsMathRound ((3 - 1) / 3 * 100 * 100 : ℚ) : ℚ) / 100 ∧
    zipRatioField 1 2 ≤ 0 :=
  ⟨(claim8_ratio_rounded 0 5).1 rfl,
   (claim8_ratio_rounded 3 1).2.1 (by norm_num),
   (claim8_ratio_rounded 1 2).2.2 (by norm_num) (by norm_num)⟩

/-- Chunk sizes delivered by the 64 KiB read stream of
CryptoUtils.generateFileHash (src/src/crypto.ts:53, highWaterMark 64*1024):
full 65536-byte chunks followed by the remainder. -/
def hashChunkSizes (n : Nat) : List Nat :=
  List.replicate (n / 65536) 65536 ++ (if n % 65536 = 0 then [] else [n % 65536])

def prefixSums : List Nat → Nat → List Nat
  | [], _ => []
  | c :: cs, acc => (acc + c) :: prefixSums cs (acc + c)

/-- Progress values reported by CryptoUtils.generateFileHash
(src/src/crypto.ts:61-70): one callback after each data chunk when the total
size is known and positive, with value
Math.round(processedBytes / totalSize * 100). -/
def progressReports (n : Nat) : List ℤ :=
  if n = 0 then []
  else (prefixSums (hashChunkSizes n) 0).map
    (fun pb : Nat => jsMathRound ((pb : ℚ) / (n : ℚ) * 100))

theorem prefixSums_length (l : List Nat) : ∀ acc, (prefixSums l acc).length = l.length := by
  induction l with
  | nil => intro acc; rfl
  | cons c cs ih => intro acc; simp [prefixSums, ih]

theorem prefixSums_le_sum (l : List Nat) :
    ∀ acc, ∀ x ∈ prefixSums l acc, x ≤ acc + l.sum := by
  induction l with
  | nil => intro acc x hx; exact absurd hx (List.not_mem_nil x)
  | cons c cs ih =>
    intro acc x hx
    rcases List.mem_cons.mp hx with hx | hx
    · subst hx
      simp [List.sum_cons]
    · have := ih (acc + c) x hx
      simp only [List.sum_cons]
      omega

theorem hashChunkSizes_sum (n : Nat) : (hashChunkSizes n).sum = n := by
  rw [hashChunkSizes, List.sum_append, List.sum_replicate, smul_eq_mul]
  by_cases h : n % 65536 = 0
  · rw [if_pos h]
    simp
    omega
  · rw [if_neg h]
    simp
    omega

/-- C9: when the total stream length n is known and positive, the hash
engine reports one progress value per chunk; each chunk has size at most
64 KiB (65536 bytes) and each reported value is an integer between 0 and
100 inclusive. -/
theorem claim9_hash_progress (n : Nat) (h : 0 < n) :
    (progressReports n).length = (hashChunkSizes n).length ∧
    (∀ csz ∈ hashChunkSizes n, 0 < csz ∧ csz ≤ 65536) ∧
    (∀ v ∈ progressReports n, 0 ≤ v ∧ v ≤ 100) := by
  have hn0 : n ≠ 0 := Nat.pos_iff_ne_zero.mp h
  refine ⟨?_, ?_, ?_⟩
  · rw [progressReports, if_neg hn0, List.length_map, prefixSums_length]
  · intro csz hcsz
    rw [hashChunkSizes] at hcsz
    rcases List.mem_append.mp hcsz with hm | hm
    · have := List.eq_of_mem_replicate hm
      omega
    · by_cases hz : n % 65536 = 0
      · rw [if_pos hz] at hm
        exact absurd hm (List.not_mem_nil csz)
      · rw [if_neg hz] at hm
        have := List.mem_singleton.mp hm
        subst this
        have := Nat.mod_lt n (show 0 < 65536 by norm_num)
        omega
  · intro v hv
    rw [progressReports, if_neg hn0] at hv
    obtain ⟨pb, hpb, hval⟩ := List.mem_map.mp hv
    have hle : pb ≤ n := by
      have := prefixSums_le_sum (hashChunkSizes n) 0 pb hpb
      rw [hashChunkSizes_sum] at this
      omega
    have hq0 : (0 : ℚ) ≤ (pb : ℚ) / (n : ℚ) * 100 := by
      apply mul_nonneg
      · apply div_nonneg
        · exact_mod_cast Nat.zero_le pb
        · exact_mod_cast Nat.zero_le n
      · norm_num
    have hq100 : (pb : ℚ) / (n : ℚ) * 100 ≤ 100 := by
      have hnq : (0 : ℚ) < (n : ℚ) := by exact_mod_cast h
      have : (pb : ℚ) / (n : ℚ) ≤ 1 := by
        rw [div_le_one hnq]
        exact_mod_cast hle
      nlinarith
    subst hval
    constructor
    · rw [jsMathRound]
      have : ((0 : ℤ) : ℚ) ≤ (pb : ℚ) / (n : ℚ) * 100 + 1 / 2 := by
        push_cast
        linarith
      exact Int.le_floor.mpr this
    · rw [jsMathRound]
      have hlt : (pb : ℚ) / (n : ℚ) * 100 + 1 / 2 < ((101 : ℤ) : ℚ) := by
        push_cast
        linarith
      have := Int.floor_lt.mpr hlt
      omega

theorem claim9_hash_progress_witness :
    ((progressReports 3).length = (hashChunkSizes 3).length ∧
      (∀ csz ∈ hashChunkSizes 3, 0 < csz ∧ csz ≤ 65536) ∧
      (∀ v ∈ progressReports 3, 0 ≤ v ∧ v ≤ 100)) ∧
    progressReports 3 = [100] :=
  ⟨claim9_hash_progress 3 (by norm_num),
   by norm_num [progressReports, hashChunkSizes, prefixSums, jsMathRound]⟩

/- A directory tree: the unit archived by SimplZip.zip.  Mutual with an
explicit forest so that structural recursion and induction are available. -/
mutual
inductive FSTree where
  | file (name : List Char) (content : List Char)
  | dir (name : List Char) (children : FSForest)
inductive FSForest where
  | nil
  | cons (t : FSTree) (ts : FSForest)
end

/-- A usable file or directory name: nonempty, separator-free and not one of
the special names dot and dot-dot. -/
def ValidSeg (n : List Char) : Prop :=
  n ≠ [] ∧ '/' ∉ n ∧ n ≠ ['.'] ∧ n ≠ ['.', '.']

instance (n : List Char) : Decidable (ValidSeg n) := by
  rw [ValidSeg]
  infer_instance

mutual
def validTree : FSTree → Prop
  | .file n _ => ValidSeg n
  | .dir n ch => ValidSeg n ∧ validForest ch
def validForest : FSForest → Prop
  | .nil => True
  | .cons t ts => validTree t ∧ validForest ts
end

/- Model of the entry walk performed by archiver's directory() on the
contents of a directory (src/unnamed/part_002:98): every descendant becomes
an entry named prefix plus its name, directories with a trailing slash and
an empty content, files with their byte content.  The compression codec is
modelled as lossless (zlib round-trips exactly). -/
mutual
def walkTree (pfx : List Char) : FSTree → List ZEntry
  | .file n c => [⟨pfx ++ n, c⟩]
  | .dir n ch => ⟨pfx ++ n ++ ['/'], []⟩ :: walkForest (pfx ++ n ++ ['/']) ch
def walkForest (pfx : List Char) : FSForest → List ZEntry
  | .nil => []
  | .cons t ts => walkTree pfx t ++ walkForest pfx ts
end

/-- Model of the entry list of the archive created by SimplZip.zip
(src/unnamed/part_002:96-102): a single file becomes one entry named by its
basename; a directory is archived under its own name (self-named), its
descendants walked recursively.  The source directory itself has no entry. -/
def zipEntries : FSTree → List ZEntry
  | .file n c => [⟨n, c⟩]
  | .dir n ch => walkForest (n ++ ['/']) ch

/-- Relative rendering of a segment prefix, with a trailing separator:
renderRel [a, b] is the character list of a/b/. -/
def renderRel (ps : List (List Char)) : List Char :=
  ps.foldr (fun s acc => s ++ '/' :: acc) []

/- The expected write list of a subtree placed at segment path base under
the extraction root. -/
mutual
def treeWrites (base : List (List Char)) : FSTree → List (List Char × Option (List Char))
  | .file n c => [(renderAbs (base ++ [n]), some c)]
  | .dir n ch => (renderAbs (base ++ [n]), none) :: forestWrites (base ++ [n]) ch
def forestWrites (base : List (List Char)) : FSForest → List (List Char × Option (List Char))
  | .nil => []
  | .cons t ts => treeWrites base t ++ forestWrites base ts
end

/-- The normalized segment list of the extraction root, outermost first. -/
def rootSegs (p : List Char) : List (List Char) :=
  (normSegsR (splitSlash p)).reverse

/-- The writes expected from extracting the archive of T into a root with
segment list R: a file lands at R plus its name; a directory tree archives
only its contents (self-named below its own name), so its descendants land
below R plus the directory name. -/
def expectedWrites (R : List (List Char)) : FSTree → List (List Char × Option (List Char))
  | .file n c => [(renderAbs (R ++ [n]), some c)]
  | .dir n ch => forestWrites (R ++ [n]) ch

theorem renderRel_snoc (ps : List (List Char)) (n : List Char) :
    renderRel (ps ++ [n]) = renderRel ps ++ (n ++ ['/']) := by
  induction ps with
  | nil => simp [renderRel]
  | cons p ps ih =>
    simp only [renderRel, List.foldr_cons, List.cons_append] at ih ⊢
    rw [ih]
    simp

theorem renderAux_foldl (S : List (List Char)) :
    ∀ a, S.foldl (fun acc s => acc ++ '/' :: s) a = a ++ renderAux S := by
  induction S with
  | nil => intro a; simp [renderAux]
  | cons s ss ih =>
    intro a
    show List.foldl _ (a ++ '/' :: s) ss = _
    rw [ih (a ++ '/' :: s)]
    have : renderAux (s :: ss) = ('/' :: s) ++ renderAux ss := by
      show List.foldl _ ([] ++ '/' :: s) ss = _
      rw [ih ([] ++ '/' :: s)]
      simp
    rw [this]
    simp

theorem renderAux_append (A B : List (List Char)) :
    renderAux (A ++ B) = renderAux A ++ renderAux B := by
  show List.foldl _ [] (A ++ B) = _
  rw [List.foldl_append]
  rw [renderAux_foldl B]
  rfl

theorem renderAux_cons (s : List Char) (ss : List (List Char)) :
    renderAux (s :: ss) = '/' :: s ++ renderAux ss := by
  show List.foldl _ ('/' :: s) ss = _
  rw [renderAux_foldl ss ('/' :: s)]

/-- Splitting a relative rendering followed by arbitrary text recovers the
segments. -/
theorem splitSlash_renderRel (ps : List (List Char)) (x : List Char)
    (hps : ∀ s ∈ ps, '/' ∉ s) :
    splitSlash (renderRel ps ++ x) = ps ++ splitSlash x := by
  induction ps with
  | nil => simp [renderRel]
  | cons p ps ih =>
    have hp : '/' ∉ p := hps p (List.mem_cons_self _ _)
    show jsSplitChar '/' ((p ++ '/' :: renderRel ps) ++ x) = _
    rw [List.append_assoc, List.cons_append]
    rw [jsSplitChar_chunk '/' p _ hp]
    rw [show jsSplitChar '/' (renderRel ps ++ x) = splitSlash (renderRel ps ++ x) from rfl,
      ih (fun s hs => hps s (List.mem_cons_of_mem _ hs))]
    rfl

theorem splitSlash_single (n : List Char) (hn : '/' ∉ n) : splitSlash n = [n] :=
  jsSplitChar_no_sep '/' n hn

theorem splitSlash_dir (n : List Char) (hn : '/' ∉ n) :
    splitSlash (n ++ ['/']) = [n, []] := by
  show jsSplitChar '/' (n ++ '/' :: []) = [n, []]
  rw [jsSplitChar_chunk '/' n [] hn]
  rfl

theorem normStep_valid (st : List (List Char)) (seg : List Char)
    (h : ValidSeg seg) : normStep st seg = seg :: st := by
  obtain ⟨h1, _, h3, h4⟩ := h
  simp [normStep, h1, h3, h4]

theorem normStep_empty (st : List (List Char)) : normStep st [] = st := by
  simp [normStep]

theorem normSegsR_append (A B : List (List Char)) :
    normSegsR (A ++ B) = B.foldl normStep (normSegsR A) := by
  rw [normSegsR, List.foldl_append]
  rfl

theorem normFold_valid (B : List (List Char)) :
    ∀ st, (∀ s ∈ B, ValidSeg s) → B.foldl normStep st = B.reverse ++ st := by
  induction B with
  | nil => intro st _; simp
  | cons b bs ih =>
    intro st h
    rw [List.foldl_cons, normStep_valid st b (h b (List.mem_cons_self _ _))]
    rw [ih (b :: st) (fun s hs => h s (List.mem_cons_of_mem _ hs))]
    simp

theorem mem_normFold (B : List (List Char)) :
    ∀ st s, s ∈ B.foldl normStep st →
      s ∈ st ∨ (s ∈ B ∧ s ≠ [] ∧ s ≠ ['.'] ∧ s ≠ ['.', '.']) := by
  induction B with
  | nil => intro st s hs; exact Or.inl hs
  | cons b bs ih =>
    intro st s hs
    rw [List.foldl_cons] at hs
    rcases ih (normStep st b) s hs with hmem | hmem
    · rw [normStep] at hmem
      by_cases hb1 : b = [] ∨ b = ['.']
      · rw [if_pos (by simpa using hb1)] at hmem
        exact Or.inl hmem
      · rw [if_neg (by simpa using hb1)] at hmem
        by_cases hb2 : b = ['.', '.']
        · rw [if_pos hb2] at hmem
          cases st with
          | nil => exact absurd hmem (List.not_mem_nil s)
          | cons x xs => exact Or.inl (List.mem_cons_of_mem x hmem)
        · rw [if_neg hb2] at hmem
          rcases List.mem_cons.mp hmem with hmem | hmem
          · subst hmem
            push_neg at hb1
            exact Or.inr ⟨List.mem_cons_self _ _, hb1.1, hb1.2, hb2⟩
          · exact Or.inl hmem
    · exact Or.inr ⟨List.mem_cons_of_mem _ hmem.1, hmem.2⟩

theorem rootSegs_valid (p : List Char) : ∀ s ∈ rootSegs p, ValidSeg s := by
  intro s hs
  rw [rootSegs, List.mem_reverse] at hs
  rcases mem_normFold (splitSlash p) [] s hs with hmem | hmem
  · exact absurd hmem (List.not_mem_nil s)
  · exact ⟨hmem.2.1, jsSplitChar_mem_no_sep '/' p s hmem.1, hmem.2.2⟩

theorem split_renderAux_chunks (ss : List (List Char)) :
    ∀ s, '/' ∉ s → (∀ x ∈ ss, '/' ∉ x) →
      jsSplitChar '/' (s ++ renderAux ss) = s :: ss := by
  induction ss with
  | nil =>
    intro s hs _
    show jsSplitChar '/' (s ++ []) = [s]
    rw [List.append_nil]
    exact jsSplitChar_no_sep '/' s hs
  | cons x ss ih =>
    intro s hs hss
    rw [renderAux_cons]
    rw [show s ++ ('/' :: x ++ renderAux ss) = s ++ '/' :: (x ++ renderAux ss) by simp]
    rw [jsSplitChar_chunk '/' s _ hs]
    rw [ih x (hss x (List.mem_cons_self _ _)) (fun y hy => hss y (List.mem_cons_of_mem _ hy))]

theorem splitSlash_renderAux_cons (s : List Char) (ss : List (List Char))
    (hs : '/' ∉ s) (hss : ∀ x ∈ ss, '/' ∉ x) :
    splitSlash (renderAux (s :: ss)) = [] :: s :: ss := by
  rw [renderAux_cons]
  show jsSplitChar '/' ('/' :: (s ++ renderAux ss)) = _
  rw [jsSplitChar_cons]
  cases hr : jsSplitChar '/' (s ++ renderAux ss) with
  | nil => exact absurd hr (jsSplitChar_ne_nil '/' _)
  | cons a t =>
    rw [split_renderAux_chunks ss s hs hss] at hr
    obtain ⟨ha, ht⟩ := List.cons.inj hr
    simp [ha, ht]

/-- Resolving an already normalized rendered path is the identity. -/
theorem resolve_renderAbs_fix (S : List (List Char)) (hS : ∀ s ∈ S, ValidSeg s) :
    jsResolveAbs (renderAbs S) = renderAbs S := by
  cases S with
  | nil => decide
  | cons s ss =>
    have hne : (s :: ss).isEmpty = false := rfl
    rw [renderAbs, hne]
    simp only [Bool.false_eq_true, if_false]
    rw [jsResolveAbs, splitSlash_renderAux_cons s ss
      (hS s (List.mem_cons_self _ _)).2.1
      (fun x hx => (hS x (List.mem_cons_of_mem _ hx)).2.1)]
    rw [normSegsR, List.foldl_cons, normStep_empty]
    rw [normFold_valid (s :: ss) [] hS]
    rw [List.append_nil, List.reverse_reverse]
    rw [renderAbs, hne]
    simp

theorem jsResolveAbs_rootSegs (p : List Char) :
    jsResolveAbs p = renderAbs (rootSegs p) := rfl

/-- Joining the extraction root with a relative entry name made of valid
segments yields the rendering of the root segments followed by the name
segments. -/
theorem splitSlash_sep_append (X Y : List Char) :
    splitSlash (X ++ '/' :: Y) = splitSlash X ++ splitSlash Y :=
  jsSplitChar_sep_append '/' X Y

theorem jsJoin_segs (extractTo : List Char) (ps : List (List Char)) (n : List Char)
    (hps : ∀ s ∈ ps, ValidSeg s) (hn : ValidSeg n) :
    jsJoin extractTo (renderRel ps ++ n) =
      renderAbs (rootSegs extractTo ++ (ps ++ [n])) := by
  rw [jsJoin]
  have hsplit : splitSlash (extractTo ++ '/' :: (renderRel ps ++ n)) =
      splitSlash extractTo ++ (ps ++ [n]) := by
    rw [splitSlash_sep_append]
    rw [splitSlash_renderRel ps n (fun s hs => (hps s hs).2.1)]
    rw [splitSlash_single n hn.2.1]
  rw [hsplit, normSegsR_append]
  have hv : ∀ s ∈ ps ++ [n], ValidSeg s := by
    intro s hs
    rcases List.mem_append.mp hs with hs | hs
    · exact hps s hs
    · rw [List.mem_singleton.mp hs]
      exact hn
  rw [normFold_valid (ps ++ [n]) _ hv]
  rw [List.reverse_append, List.reverse_reverse]
  rfl

/-- The directory variant: the entry name carries a trailing separator,
which normalization discards. -/
theorem jsJoin_segs_dir (extractTo : List Char) (ps : List (List Char)) (n : List Char)
    (hps : ∀ s ∈ ps, ValidSeg s) (hn : ValidSeg n) :
    jsJoin extractTo (renderRel ps ++ (n ++ ['/'])) =
      renderAbs (rootSegs extractTo ++ (ps ++ [n])) := by
  rw [jsJoin]
  have hsplit : splitSlash (extractTo ++ '/' :: (renderRel ps ++ (n ++ ['/']))) =
      splitSlash extractTo ++ ((ps ++ [n]) ++ [[]]) := by
    rw [splitSlash_sep_append]
    rw [splitSlash_renderRel ps (n ++ ['/']) (fun s hs => (hps s hs).2.1)]
    rw [splitSlash_dir n hn.2.1]
    simp
  rw [hsplit, normSegsR_append]
  rw [List.foldl_append]
  rw [show List.foldl normStep (List.foldl normStep (normSegsR (splitSlash extractTo)) (ps ++ [n])) [[]] =
      List.foldl normStep (normSegsR (splitSlash extractTo)) (ps ++ [n]) by
    rw [List.foldl_cons, normStep_empty]
    rfl]
  have hv : ∀ s ∈ ps ++ [n], ValidSeg s := by
    intro s hs
    rcases List.mem_append.mp hs with hs | hs
    · exact hps s hs
    · rw [List.mem_singleton.mp hs]
      exact hn
  rw [normFold_valid (ps ++ [n]) _ hv]
  rw [List.reverse_append, List.reverse_reverse]
  rfl

theorem isPathSafe_render (extractTo : List Char) (qs : List (List Char))
    (hroot : normSegsR (splitSlash extractTo) ≠ [])
    (hqs : ∀ s ∈ qs, ValidSeg s) (hne : qs ≠ []) :
    isPathSafe (renderAbs (rootSegs extractTo ++ qs)) extractTo = true := by
  have hRv := rootSegs_valid extractTo
  have hall : ∀ s ∈ rootSegs extractTo ++ qs, ValidSeg s := by
    intro s hs
    rcases List.mem_append.mp hs with hs | hs
    · exact hRv s hs
    · exact hqs s hs
  rw [isPathSafe]
  simp only [resolve_renderAbs_fix _ hall, jsResolveAbs_rootSegs]
  have hRne : rootSegs extractTo ≠ [] := by
    rw [rootSegs]
    simpa using hroot
  obtain ⟨r, rs, hR⟩ := List.exists_cons_of_ne_nil hRne
  obtain ⟨q, qs', hq⟩ := List.exists_cons_of_ne_nil hne
  have h1 : renderAbs (rootSegs extractTo) = renderAux (rootSegs extractTo) := by
    rw [renderAbs, hR]
    rfl
  have h2 : renderAbs (rootSegs extractTo ++ qs) =
      renderAux (rootSegs extractTo) ++ ('/' :: q ++ renderAux qs') := by
    rw [renderAbs, hR, hq]
    show renderAux ((r :: rs) ++ q :: qs') = _
    rw [renderAux_append, ← hR, renderAux_cons]
  have hpref : ((renderAux (rootSegs extractTo) ++ ['/']).isPrefixOf
      (renderAux (rootSegs extractTo) ++ ('/' :: q ++ renderAux qs'))) = true := by
    rw [List.isPrefixOf_iff_prefix]
    exact ⟨q ++ renderAux qs', by simp⟩
  rw [h1, h2, hpref]
  simp

theorem endsWithSlash_dir (X : List Char) : endsWithSlash (X ++ ['/']) = true := by
  rw [endsWithSlash, List.getLast?_concat]
  simp

theorem endsWithSlash_file (X n : List Char) (hne : n ≠ []) (hn : '/' ∉ n) :
    endsWithSlash (X ++ n) = false := by
  have hrev : n.reverse ≠ [] := by simpa using hne
  obtain ⟨a, t, ht⟩ := List.exists_cons_of_ne_nil hrev
  have hm : n = t.reverse ++ [a] := by
    have := congrArg List.reverse ht
    simpa using this
  have ha : a ≠ '/' := by
    intro he
    subst he
    exact hn (hm ▸ List.mem_append_right t.reverse (List.mem_singleton_self _))
  rw [hm, ← List.append_assoc, endsWithSlash, List.getLast?_concat]
  simp [ha]

/-- processEntries distributes over an append of entry lists: the loop visits
entries independently, collecting writes and warnings in order
(src/unnamed/part_002:139-165). -/
theorem processEntries_append (extractTo : List Char) (es fs : List ZEntry) :
    processEntries extractTo (es ++ fs) =
      ((processEntries extractTo es).1 ++ (processEntries extractTo fs).1,
       (processEntries extractTo es).2 ++ (processEntries extractTo fs).2) := by
  induction es with
  | nil => simp [processEntries]
  | cons e es ih =>
    simp only [List.cons_append, processEntries]
    by_cases h1 : isPathSafe (jsJoin extractTo e.name) extractTo = true
    · by_cases h2 : endsWithSlash e.name = true
      · simp [h1, h2, ih]
      · simp [h1, h2, ih]
    · simp [h1, ih]

/- The entries produced by walking a valid subtree at relative prefix
renderRel ps all pass the safety check and are written exactly at the
rendering of the root segments followed by ps and their own segment path:
the walk produces the expected writes and no warnings. -/
mutual
theorem walk_writes_tree (extractTo : List Char)
    (hroot : normSegsR (splitSlash extractTo) ≠ [])
    (ps : List (List Char)) (hps : ∀ s ∈ ps, ValidSeg s)
    (t : FSTree) (ht : validTree t) :
    processEntries extractTo (walkTree (renderRel ps) t) =
      (treeWrites (rootSegs extractTo ++ ps) t, []) := by
  cases t with
  | file n c =>
    simp only [validTree] at ht
    have hv : ∀ s ∈ ps ++ [n], ValidSeg s := by
      intro s hs
      rcases List.mem_append.mp hs with hs | hs
      · exact hps s hs
      · rw [List.mem_singleton.mp hs]
        exact ht
    simp only [walkTree, treeWrites, processEntries]
    rw [jsJoin_segs extractTo ps n hps ht]
    rw [isPathSafe_render extractTo (ps ++ [n]) hroot hv (by simp)]
    rw [endsWithSlash_file (renderRel ps) n ht.1 ht.2.1]
    simp [List.append_assoc]
  | dir n ch =>
    simp only [validTree] at ht
    obtain ⟨hn, hch⟩ := ht
    have hv : ∀ s ∈ ps ++ [n], ValidSeg s := by
      intro s hs
      rcases List.mem_append.mp hs with hs | hs
      · exact hps s hs
      · rw [List.mem_singleton.mp hs]
        exact hn
    have hrec := walk_writes_forest extractTo hroot (ps ++ [n]) hv ch hch
    simp only [walkTree, treeWrites, processEntries]
    rw [List.append_assoc (renderRel ps) n ['/']]
    rw [jsJoin_segs_dir extractTo ps n hps hn]
    rw [isPathSafe_render extractTo (ps ++ [n]) hroot hv (by simp)]
    have hes : endsWithSlash (renderRel ps ++ (n ++ ['/'])) = true := by
      rw [← List.append_assoc]
      exact endsWithSlash_dir _
    rw [hes]
    rw [← renderRel_snoc ps n]
    rw [hrec]
    simp [List.append_assoc]
theorem walk_writes_forest (extractTo : List Char)
    (hroot : normSegsR (splitSlash extractTo) ≠ [])
    (ps : List (List Char)) (hps : ∀ s ∈ ps, ValidSeg s)
    (ts : FSForest) (hts : validForest ts) :
    processEntries extractTo (walkForest (renderRel ps) ts) =
      (forestWrites (rootSegs extractTo ++ ps) ts, []) := by
  cases ts with
  | nil => simp [walkForest, forestWrites, processEntries]
  | cons t ts =>
    simp only [validForest] at hts
    obtain ⟨ht, hts2⟩ := hts
    simp only [walkForest, forestWrites]
    rw [processEntries_append]
    rw [walk_writes_tree extractTo hroot ps hps t ht]
    rw [walk_writes_forest extractTo hroot ps hps ts hts2]
    simp
end

/-- C4: round-trip.  For every directory tree T with usable names (nonempty,
separator-free, not dot or dot-dot) and every extraction root that does not
normalize to the filesystem root, extracting the archive created from T
succeeds with no warnings and performs exactly the expected writes: every
file of T is written with its exact byte content at the root joined with its
relative path, and every directory of T — including empty ones, which have
their own trailing-slash entries — is created at its relative path.
Compression level is irrelevant: the codec is modelled as lossless, as zlib
round-trips exactly at every level. -/
theorem claim4_roundtrip (kdf : KDF) (extractTo : List Char) (t : FSTree)
    (hroot : normSegsR (splitSlash extractTo) ≠ []) (ht : validTree t) :
    unzipModel kdf ⟨[], zipEntries t⟩ extractTo none =
      .extracted extractTo (expectedWrites (rootSegs extractTo) t) [] := by
  have hmain : processEntries extractTo (zipEntries t) =
      (expectedWrites (rootSegs extractTo) t, []) := by
    cases t with
    | file n c =>
      have h := walk_writes_tree extractTo hroot [] (by simp) (.file n c) ht
      simp only [renderRel, List.foldr_nil, walkTree, List.nil_append,
        List.append_nil, treeWrites] at h
      simp only [zipEntries, expectedWrites]
      exact h
    | dir n ch =>
      simp only [validTree] at ht
      obtain ⟨hn, hch⟩ := ht
      have hone : ∀ s ∈ [n], ValidSeg s := by
        intro s hs
        rw [List.mem_singleton.mp hs]
        exact hn
      have h := walk_writes_forest extractTo hroot [n] hone ch hch
      have hren : renderRel [n] = n ++ ['/'] := by simp [renderRel]
      rw [hren] at h
      simp only [zipEntries, expectedWrites]
      exact h
  have hprot : checkPasswordProtection ([] : List Char) = false := by decide
  simp only [unzipModel, hprot, Bool.false_and, Bool.false_eq_true,
    if_false, hmain]

/-- A concrete tree exercising the round-trip: a directory holding one file
and one empty subdirectory. -/
def demoTree : FSTree :=
  .dir (String.toList "photos")
    (.cons (.file (String.toList "a.txt") (String.toList "hello"))
      (.cons (.dir (String.toList "empty") .nil) .nil))

theorem claim4_roundtrip_witness :
    (normSegsR (splitSlash (String.toList "/out")) ≠ [] ∧ validTree demoTree) ∧
    unzipModel kdfToy ⟨[], zipEntries demoTree⟩ (String.toList "/out") none =
      .extracted (String.toList "/out")
        (expectedWrites (rootSegs (String.toList "/out")) demoTree) [] := by
  have h1 : normSegsR (splitSlash (String.toList "/out")) ≠ [] := by decide
  have h2 : validTree demoTree := by
    simp only [demoTree, validTree, validForest, and_true]
    exact ⟨by decide, by decide, by decide⟩
  exact ⟨⟨h1, h2⟩, claim4_roundtrip kdfToy (String.toList "/out") demoTree h1 h2⟩


end SZip
